import Mathlib

/-!
Verification development for the go-migration engine: migration registry,
tracker/batch bookkeeping, migrator lifecycle operations (Up / Rollback /
Reset / Fresh), seeder dependency resolution, and the three SQL grammar
compilers.  Definitions are shallow embeddings of the Go source; database
I/O (which can only fail for environmental reasons) is modelled as pure
state over the tracking-table contents.
-/

/-! ## String utilities

Go compares strings byte-wise; we model that with an executable
lexicographic comparator over the char list of a `String`, together with
substring tests used to state facts about generated SQL text. -/

/-- startsWithChars needle hay: needle is a leading segment of hay. -/
def startsWithChars : List Char → List Char → Bool
  | [], _ => true
  | _ :: _, [] => false
  | a :: as, b :: bs => a = b && startsWithChars as bs

/-- hasSubChars needle hay: needle occurs contiguously somewhere in hay. -/
def hasSubChars (needle : List Char) : List Char → Bool
  | [] => startsWithChars needle []
  | c :: rest => startsWithChars needle (c :: rest) || hasSubChars needle rest

/-- strHasSub hay needle: needle occurs as a contiguous substring of hay. -/
def strHasSub (hay needle : String) : Bool :=
  hasSubChars needle.data hay.data

theorem hasSubChars_append_right (nd l₂ : List Char) (l₁ : List Char)
    (h : hasSubChars nd l₂ = true) : hasSubChars nd (l₁ ++ l₂) = true := by
  induction l₁ with
  | nil => simpa using h
  | cons c cs ih =>
    simp only [List.cons_append, hasSubChars, Bool.or_eq_true]
    exact Or.inr ih

/-- ltChars: strict lexicographic order on char lists (Go string `<`). -/
def ltChars : List Char → List Char → Bool
  | [], [] => false
  | [], _ :: _ => true
  | _ :: _, [] => false
  | a :: as, b :: bs => if a = b then ltChars as bs else decide (a < b)

/-- strLt: Go's `<` on strings. -/
def strLt (a b : String) : Bool := ltChars a.data b.data

/-- strLe: Go's `<=` on strings. -/
def strLe (a b : String) : Bool := !(strLt b a)

theorem ltChars_irrefl : ∀ l : List Char, ltChars l l = false := by
  intro l
  induction l with
  | nil => rfl
  | cons a as ih => simp [ltChars, ih]

theorem ltChars_trans : ∀ a b c : List Char,
    ltChars a b = true → ltChars b c = true → ltChars a c = true := by
  intro a
  induction a with
  | nil =>
    intro b c hab hbc
    cases b with
    | nil => simp [ltChars] at hab
    | cons y ys =>
      cases c with
      | nil => simp [ltChars] at hbc
      | cons z zs => simp [ltChars]
  | cons x xs ih =>
    intro b c hab hbc
    cases b with
    | nil => simp [ltChars] at hab
    | cons y ys =>
      cases c with
      | nil => simp [ltChars] at hbc
      | cons z zs =>
        simp only [ltChars] at hab hbc ⊢
        by_cases hxy : x = y
        · subst hxy
          simp only [if_pos rfl] at hab
          by_cases hyz : x = z
          · subst hyz
            simp only [if_pos rfl] at hbc ⊢
            exact ih ys zs hab hbc
          · simp only [if_neg hyz] at hbc ⊢
            exact hbc
        · simp only [if_neg hxy] at hab
          have hxylt : x < y := of_decide_eq_true hab
          by_cases hyz : y = z
          · subst hyz
            simp only [if_neg hxy]
            exact hab
          · simp only [if_neg hyz] at hbc
            have hyzlt : y < z := of_decide_eq_true hbc
            have hxzlt : x < z := lt_trans hxylt hyzlt
            have hxz : x ≠ z := ne_of_lt hxzlt
            simp only [if_neg hxz]
            exact decide_eq_true hxzlt

theorem ltChars_conn : ∀ a b : List Char,
    ltChars a b = false → ltChars b a = false → a = b := by
  intro a
  induction a with
  | nil =>
    intro b hab _
    cases b with
    | nil => rfl
    | cons y ys => simp [ltChars] at hab
  | cons x xs ih =>
    intro b hab hba
    cases b with
    | nil => simp [ltChars] at hba
    | cons y ys =>
      simp only [ltChars] at hab hba
      by_cases hxy : x = y
      · subst hxy
        simp only [if_pos rfl] at hab hba
        rw [ih ys hab hba]
      · simp only [if_neg hxy, if_neg (Ne.symm hxy)] at hab hba
        have h1 : ¬ x < y := of_decide_eq_false hab
        have h2 : ¬ y < x := of_decide_eq_false hba
        exact absurd (le_antisymm (not_lt.mp h2) (not_lt.mp h1)) hxy

theorem ltChars_asymm {a b : List Char} (h : ltChars a b = true) :
    ltChars b a = false := by
  by_contra hne
  have hba : ltChars b a = true := by
    cases hh : ltChars b a
    · exact absurd hh hne
    · rfl
  have := ltChars_trans a b a h hba
  rw [ltChars_irrefl] at this
  exact Bool.false_ne_true this

theorem strLt_irrefl (a : String) : strLt a a = false := ltChars_irrefl a.data

theorem strLt_trans {a b c : String} (h1 : strLt a b = true) (h2 : strLt b c = true) :
    strLt a c = true := ltChars_trans a.data b.data c.data h1 h2

theorem strLt_conn {a b : String} (h1 : strLt a b = false) (h2 : strLt b a = false) :
    a = b := by
  cases a with
  | mk da =>
    cases b with
    | mk db =>
      exact congrArg String.mk (ltChars_conn da db h1 h2)

theorem strLt_asymm {a b : String} (h : strLt a b = true) : strLt b a = false :=
  ltChars_asymm h

theorem strLt_ne {a b : String} (h : strLt a b = true) : a ≠ b := by
  intro he
  rw [he, strLt_irrefl] at h
  exact Bool.false_ne_true h

theorem strLt_of_ne_of_not_lt {a b : String} (h1 : strLt a b = false) (h2 : a ≠ b) :
    strLt b a = true := by
  cases hh : strLt b a
  · exact absurd (strLt_conn h1 hh) h2
  · rfl

/-! ## Migration registry (pkg/migrator registry: Register / Get / Count)

The Go registry keeps `[]registeredMigration` in ascending name order,
inserting via `sort.Search` (lower bound on a sorted slice) and reading via
the same binary search.  On a sorted slice the `sort.Search` insertion
point is exactly the length of the maximal prefix of names `< name`, which
is how we render it. -/

/-- Errors of the migration registry (sentinels in the Go source). -/
inductive RegErr where
  | invalidName
  | duplicateName
  | notFound
  deriving DecidableEq, Repr

/-- Char is an ASCII decimal digit (for the name pattern). -/
def isDigitCh (c : Char) : Bool := '0' ≤ c && c ≤ '9'

/-- Char is a lowercase ASCII letter. -/
def isLowerCh (c : Char) : Bool := 'a' ≤ c && c ≤ 'z'

/-- Char allowed in the snake_case part after its first letter. -/
def isSnakeCh (c : Char) : Bool := isLowerCh c || isDigitCh c || c = '_'

/-- validNameChars: the regex `^\d{14}_[a-z][a-z0-9_]*$` over a char list. -/
def validNameChars (cs : List Char) : Bool :=
  let ts := cs.take 14
  let rest := cs.drop 14
  ts.length = 14 && ts.all isDigitCh &&
    match rest with
    | '_' :: d :: ds => isLowerCh d && ds.all isSnakeCh
    | _ => false

/-- validName: migration-name pattern check (namePattern in the source). -/
def validName (s : String) : Bool := validNameChars s.data

/-- Register on a name-keyed registry list; returns the (possibly unchanged)
registry together with an optional error, mirroring the mutable Go receiver
which is left untouched on a rejected registration. -/
def regRegister {α : Type} (r : List (String × α)) (name : String) (m : α) :
    List (String × α) × Option RegErr :=
  if ¬ validName name then (r, some RegErr.invalidName)
  else if r.any (fun p => p.1 = name) then (r, some RegErr.duplicateName)
  else (r.takeWhile (fun p => strLt p.1 name) ++
          (name, m) :: r.dropWhile (fun p => strLt p.1 name),
        none)

/-- Get by binary search: drop the strict lower part, then the first entry
either matches the name or the name is absent. -/
def regGet {α : Type} (r : List (String × α)) (name : String) : Except RegErr α :=
  match r.dropWhile (fun p => strLt p.1 name) with
  | [] => Except.error RegErr.notFound
  | (k, v) :: _ => if k = name then Except.ok v else Except.error RegErr.notFound

/-- Sortedness invariant of the registry: keys strictly ascending. -/
def regSorted {α : Type} (r : List (String × α)) : Prop :=
  r.Pairwise (fun p q => strLt p.1 q.1 = true)

instance {α : Type} (r : List (String × α)) : Decidable (regSorted r) := by
  unfold regSorted; infer_instance

theorem mem_dropWhile_not_lt {α : Type} (c : String) :
    ∀ (l : List (String × α)), l.Pairwise (fun p q => strLt p.1 q.1 = true) →
      ∀ x ∈ l.dropWhile (fun p => strLt p.1 c), strLt x.1 c = false := by
  intro l
  induction l with
  | nil => intro _ x hx; simp [List.dropWhile] at hx
  | cons a as ih =>
    intro hp x hx
    rw [List.pairwise_cons] at hp
    by_cases hd : strLt a.1 c = true
    · rw [List.dropWhile_cons_of_pos (p := fun q : String × α => strLt q.1 c) hd] at hx
      exact ih hp.2 x hx
    · have hd' : strLt a.1 c = false := by
        cases hh : strLt a.1 c
        · rfl
        · exact absurd hh hd
      rw [List.dropWhile_cons_of_neg (p := fun q : String × α => strLt q.1 c) (by simp [hd'])] at hx
      rcases List.mem_cons.mp hx with hx | hx
      · rw [hx]; exact hd'
      · cases hh : strLt x.1 c
        · rfl
        · exact absurd (strLt_trans (hp.1 x hx) hh) (by simp [hd'])

theorem regGet_mem {α : Type} (r : List (String × α)) (hs : regSorted r)
    (k : String) (v : α) (hmem : (k, v) ∈ r) : regGet r k = Except.ok v := by
  induction r with
  | nil => simp at hmem
  | cons a as ih =>
    rw [regSorted, List.pairwise_cons] at hs
    unfold regGet
    by_cases hd : strLt a.1 k = true
    · rw [List.dropWhile_cons_of_pos (p := fun q : String × α => strLt q.1 k) hd]
      rcases List.mem_cons.mp hmem with h | h
      · have hk : a.1 = k := by rw [← h]
        rw [hk, strLt_irrefl] at hd
        exact absurd hd Bool.false_ne_true
      · exact ih hs.2 h
    · rw [List.dropWhile_cons_of_neg (p := fun q : String × α => strLt q.1 k) (by simpa using hd)]
      rcases List.mem_cons.mp hmem with h | h
      · simp [← h]
      · exact absurd (hs.1 _ h) hd

theorem regGet_absent {α : Type} (r : List (String × α)) (k : String)
    (habs : ∀ p ∈ r, p.1 ≠ k) : regGet r k = Except.error RegErr.notFound := by
  unfold regGet
  have hsub : ∀ p ∈ r.dropWhile (fun p => strLt p.1 k), p.1 ≠ k := by
    intro p hp
    exact habs p ((List.dropWhile_sublist _).mem hp)
  cases hdw : r.dropWhile (fun p => strLt p.1 k) with
  | nil => rfl
  | cons q qs =>
    have : q.1 ≠ k := hsub q (by rw [hdw]; exact List.mem_cons_self _ _)
    simp [this]

theorem regRegister_sorted {α : Type} (r : List (String × α)) (name : String) (m : α)
    (hs : regSorted r) (hnew : ∀ p ∈ r, p.1 ≠ name) :
    regSorted (r.takeWhile (fun p => strLt p.1 name) ++
      (name, m) :: r.dropWhile (fun p => strLt p.1 name)) := by
  have hdecomp := List.takeWhile_append_dropWhile
    (p := fun p : String × α => strLt p.1 name) (l := r)
  have hsplit : List.Pairwise (fun p q : String × α => strLt p.1 q.1 = true)
      (r.takeWhile (fun p => strLt p.1 name) ++
        r.dropWhile (fun p => strLt p.1 name)) := by
    rw [hdecomp]; exact hs
  rw [List.pairwise_append] at hsplit
  have htw : ∀ x ∈ r.takeWhile (fun p : String × α => strLt p.1 name),
      strLt x.1 name = true := by
    intro x hx
    simpa using List.mem_takeWhile_imp hx
  have hdw : ∀ x ∈ r.dropWhile (fun p : String × α => strLt p.1 name),
      strLt name x.1 = true := by
    intro x hx
    have h1 : strLt x.1 name = false := mem_dropWhile_not_lt name r hs x hx
    have h2 : x.1 ≠ name := hnew x ((List.dropWhile_sublist _).mem hx)
    exact strLt_of_ne_of_not_lt h1 h2
  rw [regSorted, List.pairwise_append]
  refine ⟨hsplit.1, ?_, ?_⟩
  · rw [List.pairwise_cons]
    exact ⟨fun x hx => hdw x hx, hsplit.2.1⟩
  · intro a ha b hb
    rcases List.mem_cons.mp hb with hb | hb
    · rw [hb]; exact htw a ha
    · exact hsplit.2.2 a ha b hb

/-- C4: Registry contract.  Register rejects names failing the
`^\d{14}_[a-z][a-z0-9_]*$` pattern with InvalidName and already-present
names with DuplicateName, leaving the registry unchanged in both cases;
a successful Register inserts at the sorted position (so the registry stays
sorted ascending) and Get then returns exactly the registered instance,
while Get of an absent name fails with NotFound. -/
theorem registry_contract {α : Type} (r : List (String × α)) (name : String) (m : α)
    (hs : regSorted r) :
    (validName name = false → regRegister r name m = (r, some RegErr.invalidName)) ∧
    (validName name = true → (∃ p ∈ r, p.1 = name) →
      regRegister r name m = (r, some RegErr.duplicateName)) ∧
    (validName name = true → (∀ p ∈ r, p.1 ≠ name) →
      (regRegister r name m).2 = none ∧
      regSorted (regRegister r name m).1 ∧
      regGet (regRegister r name m).1 name = Except.ok m) ∧
    (∀ k v, (k, v) ∈ r → regGet r k = Except.ok v) ∧
    (∀ k, (∀ p ∈ r, p.1 ≠ k) → regGet r k = Except.error RegErr.notFound) := by
  refine ⟨?_, ?_, ?_, ?_, ?_⟩
  · intro hv
    simp [regRegister, hv]
  · intro hv hdup
    have hany : r.any (fun p => p.1 = name) = true := by
      rcases hdup with ⟨p, hp, hpe⟩
      exact List.any_eq_true.mpr ⟨p, hp, by simpa using hpe⟩
    simp [regRegister, hv, hany]
  · intro hv hnew
    have hany : r.any (fun p => p.1 = name) = false := by
      rw [List.any_eq_false]
      intro p hp
      simpa using hnew p hp
    have heq : regRegister r name m =
        (r.takeWhile (fun p => strLt p.1 name) ++
          (name, m) :: r.dropWhile (fun p => strLt p.1 name), none) := by
      simp [regRegister, hv, hany]
    refine ⟨by rw [heq], ?_, ?_⟩
    · rw [heq]
      exact regRegister_sorted r name m hs hnew
    · rw [heq]
      exact regGet_mem _ (regRegister_sorted r name m hs hnew) name m (by simp)
  · intro k v hkv
    exact regGet_mem r hs k v hkv
  · intro k hk
    exact regGet_absent r k hk

/-- C4 witness data: a two-entry sorted registry over Nat payloads. -/
def regW : List (String × Nat) :=
  [("20240101000000_a", 1), ("20240103000000_c", 3)]

/-- C4 witness name to be inserted between the two existing entries. -/
def regWName : String := "20240102000000_b"

/-- C4 witness: instantiating the registry contract on concrete data. -/
theorem registry_contract_w :
    regSorted regW ∧
    validName regWName = true ∧
    (regRegister regW regWName 2).2 = none ∧
    regSorted (regRegister regW regWName 2).1 ∧
    regGet (regRegister regW regWName 2).1 regWName = Except.ok 2 ∧
    regGet regW "20240102000000_x" = Except.error RegErr.notFound := by
  have h := registry_contract regW regWName 2 (by decide)
  have h3 := h.2.2.1 (by decide) (by decide)
  exact ⟨by decide, by decide, h3.1, h3.2.1, h3.2.2,
    h.2.2.2.2 _ (by decide)⟩

/-! ## Tracker and BatchManager (tracker.go / batch.go)

The tracking table is modelled as the list of its rows in insertion order.
`GetApplied` is `SELECT ... ORDER BY migration ASC`, rendered as an
insertion sort by name; `GetLastBatchNumber` is `COALESCE(MAX(batch), 0)`.
The row's created_at timestamp is not consulted by any lifecycle logic and
is omitted from the record. -/

/-- One row of the migration tracking table. -/
structure MigRecord where
  name : String
  batch : Int
  deriving DecidableEq, Repr

/-- recLe: row comparison by name (the ORDER BY migration ASC key). -/
def recLe (a b : MigRecord) : Bool := strLe a.name b.name

/-- Ordered insert used to render the SQL ORDER BY as an insertion sort. -/
def insertRecByName (x : MigRecord) : List MigRecord → List MigRecord
  | [] => [x]
  | y :: ys => if recLe x y then x :: y :: ys else y :: insertRecByName x ys

/-- GetApplied: all rows ordered by name ascending. -/
def getApplied (tbl : List MigRecord) : List MigRecord :=
  tbl.foldr insertRecByName []

/-- GetLastBatchNumber: COALESCE(MAX(batch), 0). -/
def getLastBatchNumber (tbl : List MigRecord) : Int :=
  match tbl.map (fun r => r.batch) with
  | [] => 0
  | b :: bs => bs.foldl max b

/-- GetByBatch: rows of one batch, ordered by name ascending. -/
def getByBatch (tbl : List MigRecord) (b : Int) : List MigRecord :=
  (getApplied tbl).filter (fun r => r.batch = b)

/-- NextBatchNumber = GetLastBatchNumber + 1. -/
def nextBatchNumber (tbl : List MigRecord) : Int := getLastBatchNumber tbl + 1

/-- GetLastBatch: rows of the max batch; empty when the max batch is 0. -/
def getLastBatch (tbl : List MigRecord) : List MigRecord :=
  if getLastBatchNumber tbl = 0 then [] else getByBatch tbl (getLastBatchNumber tbl)

/-- GetLastNMigrations: the last n applied rows in reverse name order
(result[i] = applied[len-1-i] in the source), clamped, nil for n <= 0. -/
def getLastNMigrations (tbl : List MigRecord) (n : Int) : List MigRecord :=
  if n ≤ 0 then []
  else
    let applied := getApplied tbl
    if applied.isEmpty then []
    else
      let k := min n.toNat applied.length
      (applied.drop (applied.length - k)).reverse

/-- Tracker.Remove: DELETE FROM tbl WHERE migration = name. -/
def removeRec (tbl : List MigRecord) (name : String) : List MigRecord :=
  tbl.filter (fun r => r.name ≠ name)

theorem strLe_total (a b : String) : strLe a b = true ∨ strLe b a = true := by
  unfold strLe
  cases h : strLt b a
  · left; rfl
  · right
    rw [strLt_asymm h]
    rfl

theorem strLe_trans {a b c : String} (h1 : strLe a b = true) (h2 : strLe b c = true) :
    strLe a c = true := by
  unfold strLe at h1 h2 ⊢
  cases hca : strLt c a
  · rfl
  · exfalso
    have hba : strLt b a = false := by
      cases hh : strLt b a
      · rfl
      · rw [hh] at h1; simp at h1
    have hcb : strLt c b = false := by
      cases hh : strLt c b
      · rfl
      · rw [hh] at h2; simp at h2
    cases hbc : strLt b c
    · have hbeqc : b = c := strLt_conn hbc hcb
      rw [hbeqc] at hba
      rw [hca] at hba
      simp at hba
    · have : strLt b a = true := strLt_trans hbc hca
      rw [this] at hba
      simp at hba

theorem strLe_of_not_le {a b : String} (h : strLe a b = false) : strLe b a = true := by
  rcases strLe_total a b with h1 | h1
  · rw [h1] at h; simp at h
  · exact h1

theorem insertRecByName_perm (x : MigRecord) (l : List MigRecord) :
    (insertRecByName x l).Perm (x :: l) := by
  induction l with
  | nil => simp [insertRecByName]
  | cons y ys ih =>
    unfold insertRecByName
    by_cases h : recLe x y = true
    · rw [if_pos h]
    · rw [if_neg h]
      exact (List.Perm.cons y ih).trans (List.Perm.swap x y ys)

theorem getApplied_perm (tbl : List MigRecord) : (getApplied tbl).Perm tbl := by
  induction tbl with
  | nil => simp [getApplied]
  | cons r rs ih =>
    exact (insertRecByName_perm r (getApplied rs)).trans (List.Perm.cons r ih)

theorem insertRecByName_sorted (x : MigRecord) (l : List MigRecord)
    (h : l.Pairwise (fun a b => recLe a b = true)) :
    (insertRecByName x l).Pairwise (fun a b => recLe a b = true) := by
  induction l with
  | nil => simp [insertRecByName]
  | cons y ys ih =>
    rw [List.pairwise_cons] at h
    unfold insertRecByName
    by_cases hxy : recLe x y = true
    · rw [if_pos hxy, List.pairwise_cons]
      constructor
      · intro z hz
        rcases List.mem_cons.mp hz with hz | hz
        · rw [hz]; exact hxy
        · exact strLe_trans hxy (h.1 z hz)
      · rw [List.pairwise_cons]
        exact h
    · rw [if_neg hxy, List.pairwise_cons]
      constructor
      · intro z hz
        have hz' : z ∈ x :: ys := (insertRecByName_perm x ys).mem_iff.mp hz
        rcases List.mem_cons.mp hz' with hz' | hz'
        · rw [hz']
          have hfalse : recLe x y = false := by
            cases hh : recLe x y
            · rfl
            · exact absurd hh hxy
          exact strLe_of_not_le hfalse
        · exact h.1 z hz'
      · exact ih h.2

theorem getApplied_sorted (tbl : List MigRecord) :
    (getApplied tbl).Pairwise (fun a b => recLe a b = true) := by
  induction tbl with
  | nil => simp [getApplied]
  | cons r rs ih =>
    exact insertRecByName_sorted r (getApplied rs) ih

/-! ## Migrator (migrator.go): Up / Rollback / Reset / Fresh

Migration bodies, before-hooks and the hook pipeline are modelled by a
success oracle `MEnv` (the after-hook pipeline always "succeeds" because
RunAfter swallows hook errors).  A trace records, in chronological order,
which migrations were executed by the Runner and which before/after hook
pipelines were invoked, so that the theorems can speak about invocations
and not only about final state.  EnsureTable / GetApplied themselves can
only fail for environmental I/O reasons and are modelled as pure reads. -/

/-- Direction literal passed to hooks and the Runner for Up. -/
def dirUp : String := "up"

/-- Direction literal passed to hooks and the Runner for Down. -/
def dirDown : String := "down"

/-- Success oracle for migration bodies and the before-hook pipeline. -/
structure MEnv where
  upOk : String → Bool
  downOk : String → Bool
  beforeOk : String → String → Bool

/-- Chronological trace of Runner executions and hook-pipeline runs. -/
structure MTrace where
  executed : List (String × String)
  beforeCalls : List (String × String)
  afterCalls : List (String × String)
  deriving DecidableEq, Repr

/-- The empty trace. -/
def emptyTrace : MTrace := ⟨[], [], []⟩

/-- Errors surfaced by migrator lifecycle operations. -/
inductive MErr where
  | beforeHook (name : String)
  | migration (name dir : String)
  | notFound (name : String)
  | noGrammar
  deriving DecidableEq, Repr

/-- Result of a lifecycle operation: final table, trace, optional error. -/
structure MResult where
  tbl : List MigRecord
  trace : MTrace
  err : Option MErr
  deriving DecidableEq, Repr

/-- Per-migration loop of Up: before-hook, Runner.Execute up, Record,
after-hook; the first failure stops the loop. -/
def upFrom (env : MEnv) (batch : Int) : List String → List MigRecord → MResult
  | [], tbl => ⟨tbl, emptyTrace, none⟩
  | n :: rest, tbl =>
    if env.beforeOk n dirUp = false then
      ⟨tbl, ⟨[], [(n, dirUp)], []⟩, some (MErr.beforeHook n)⟩
    else if env.upOk n = false then
      ⟨tbl, ⟨[(n, dirUp)], [(n, dirUp)], []⟩, some (MErr.migration n dirUp)⟩
    else
      let res := upFrom env batch rest (tbl ++ [⟨n, batch⟩])
      ⟨res.tbl,
        ⟨(n, dirUp) :: res.trace.executed,
         (n, dirUp) :: res.trace.beforeCalls,
         (n, dirUp) :: res.trace.afterCalls⟩,
        res.err⟩

/-- Names of the applied rows as looked up by Up's applied-set. -/
def appliedNames (tbl : List MigRecord) : List String :=
  (getApplied tbl).map (fun r => r.name)

/-- Up: pending = registered (ascending) minus applied, no-op when none,
else one new batch number for the whole pass. -/
def Up (env : MEnv) (reg : List String) (tbl : List MigRecord) : MResult :=
  if reg.filter (fun n => ¬ (appliedNames tbl).contains n) = [] then
    ⟨tbl, emptyTrace, none⟩
  else
    upFrom env (nextBatchNumber tbl)
      (reg.filter (fun n => ¬ (appliedNames tbl).contains n)) tbl

/-- Registry.Get as used by Rollback/Reset: binary search for the name on
the sorted name list. -/
def regLookup (reg : List String) (name : String) : Bool :=
  match reg.dropWhile (fun k => strLt k name) with
  | [] => false
  | k :: _ => k = name

/-- Per-record loop of Rollback: Registry.Get, before-hook, Runner.Execute
down, Tracker.Remove, after-hook; the first failure stops the loop. -/
def rollbackFrom (env : MEnv) (reg : List String) :
    List MigRecord → List MigRecord → MResult
  | [], tbl => ⟨tbl, emptyTrace, none⟩
  | r :: rest, tbl =>
    if regLookup reg r.name = false then
      ⟨tbl, emptyTrace, some (MErr.notFound r.name)⟩
    else if env.beforeOk r.name dirDown = false then
      ⟨tbl, ⟨[], [(r.name, dirDown)], []⟩, some (MErr.beforeHook r.name)⟩
    else if env.downOk r.name = false then
      ⟨tbl, ⟨[(r.name, dirDown)], [(r.name, dirDown)], []⟩,
        some (MErr.migration r.name dirDown)⟩
    else
      let res := rollbackFrom env reg rest (removeRec tbl r.name)
      ⟨res.tbl,
        ⟨(r.name, dirDown) :: res.trace.executed,
         (r.name, dirDown) :: res.trace.beforeCalls,
         (r.name, dirDown) :: res.trace.afterCalls⟩,
        res.err⟩

/-- Record selection of Rollback: last batch when steps == 0, last N
migrations otherwise. -/
def rollbackRecords (tbl : List MigRecord) (steps : Int) : List MigRecord :=
  if steps = 0 then getLastBatch tbl else getLastNMigrations tbl steps

/-- Rollback: select records, no-op when none, reverse the (ascending) last
batch when steps == 0 (GetLastNMigrations is already reversed). -/
def Rollback (env : MEnv) (reg : List String) (tbl : List MigRecord)
    (steps : Int) : MResult :=
  if rollbackRecords tbl steps = [] then ⟨tbl, emptyTrace, none⟩
  else
    rollbackFrom env reg
      (if steps = 0 then (rollbackRecords tbl steps).reverse
       else rollbackRecords tbl steps) tbl

/-- Per-record loop of Reset: Registry.Get, Runner.Execute down,
Tracker.Remove, after-hook.  The source runs no before-hooks here. -/
def resetFrom (env : MEnv) (reg : List String) :
    List MigRecord → List MigRecord → MResult
  | [], tbl => ⟨tbl, emptyTrace, none⟩
  | r :: rest, tbl =>
    if regLookup reg r.name = false then
      ⟨tbl, emptyTrace, some (MErr.notFound r.name)⟩
    else if env.downOk r.name = false then
      ⟨tbl, ⟨[(r.name, dirDown)], [], []⟩, some (MErr.migration r.name dirDown)⟩
    else
      let res := resetFrom env reg rest (removeRec tbl r.name)
      ⟨res.tbl,
        ⟨(r.name, dirDown) :: res.trace.executed,
         res.trace.beforeCalls,
         (r.name, dirDown) :: res.trace.afterCalls⟩,
        res.err⟩

/-- Reset: roll back every applied migration in reverse name order. -/
def Reset (env : MEnv) (reg : List String) (tbl : List MigRecord) : MResult :=
  resetFrom env reg (getApplied tbl).reverse tbl

/-- A grammar as seen by Fresh: only its CompileDropAllTables output. -/
structure GrammarM where
  dropAllTables : String
  deriving DecidableEq, Repr

/-- A single-quote character for building SQL literals. -/
def sqQuote : String := String.singleton (Char.ofNat 39)

/-- PostgresGrammar.CompileDropAllTables. -/
def postgresDropAllTables : String := "DROP SCHEMA public CASCADE; CREATE SCHEMA public"

/-- SQLiteGrammar.CompileDropAllTables: a SELECT over sqlite_master. -/
def sqliteDropAllTables : String :=
  "SELECT name FROM sqlite_master WHERE type=" ++ sqQuote ++ "table" ++ sqQuote ++
    " AND name NOT LIKE " ++ sqQuote ++ "sqlite_%" ++ sqQuote

/-- MySQLGrammar.CompileDropAllTables: disables foreign key checks only. -/
def mysqlDropAllTables : String := "SET FOREIGN_KEY_CHECKS = 0"

/-- The three dialect grammars as Fresh sees them. -/
def postgresGrammarM : GrammarM := ⟨postgresDropAllTables⟩

/-- SQLite grammar for Fresh. -/
def sqliteGrammarM : GrammarM := ⟨sqliteDropAllTables⟩

/-- MySQL grammar for Fresh. -/
def mysqlGrammarM : GrammarM := ⟨mysqlDropAllTables⟩

/-- Fresh: fails without a grammar; otherwise executes the grammar's
CompileDropAllTables statement and then runs Up.  The first component is
the SQL statement Fresh handed to the database, if any. -/
def Fresh (env : MEnv) (g : Option GrammarM) (reg : List String)
    (tbl : List MigRecord) : Option String × MResult :=
  match g with
  | none => (none, ⟨tbl, emptyTrace, some MErr.noGrammar⟩)
  | some gr => (some gr.dropAllTables, Up env reg tbl)

theorem mem_appliedNames (tbl : List MigRecord) (n : String) :
    n ∈ appliedNames tbl ↔ ∃ r ∈ tbl, r.name = n := by
  rw [appliedNames, List.mem_map]
  constructor
  · rintro ⟨r, hr, hrn⟩
    exact ⟨r, (getApplied_perm tbl).mem_iff.mp hr, hrn⟩
  · rintro ⟨r, hr, hrn⟩
    exact ⟨r, (getApplied_perm tbl).mem_iff.mpr hr, hrn⟩

theorem upFrom_ok (env : MEnv) (batch : Int) :
    ∀ (pending : List String) (tbl : List MigRecord),
      (∀ n ∈ pending, env.beforeOk n dirUp = true ∧ env.upOk n = true) →
      upFrom env batch pending tbl =
        ⟨tbl ++ pending.map (fun n => ⟨n, batch⟩),
         ⟨pending.map (fun n => (n, dirUp)),
          pending.map (fun n => (n, dirUp)),
          pending.map (fun n => (n, dirUp))⟩,
         none⟩ := by
  intro pending
  induction pending with
  | nil => intro tbl _; simp [upFrom, emptyTrace]
  | cons n rest ih =>
    intro tbl hok
    have hn := hok n (List.mem_cons_self _ _)
    have hrest : ∀ m ∈ rest, env.beforeOk m dirUp = true ∧ env.upOk m = true :=
      fun m hm => hok m (List.mem_cons_of_mem _ hm)
    have hrec := ih (tbl ++ [MigRecord.mk n batch]) hrest
    unfold upFrom
    rw [hn.1, hn.2]
    simp only [Bool.true_eq_false, if_false]
    rw [hrec]
    simp [List.append_assoc]

/-- C1: Up computes pending as registered minus applied (matched by name);
with nothing pending it is a no-op success; otherwise it allocates the
single batch number previousMax+1 and, walking the pending migrations in
ascending name order, records each of them with that same batch number. -/
theorem up_spec (env : MEnv) (reg : List String) (tbl : List MigRecord)
    (hsort : reg.Pairwise (fun a b => strLt a b = true))
    (hok : ∀ n ∈ reg.filter (fun n => ¬ (appliedNames tbl).contains n),
        env.beforeOk n dirUp = true ∧ env.upOk n = true) :
    (∀ n, n ∈ reg.filter (fun n => ¬ (appliedNames tbl).contains n) ↔
        (n ∈ reg ∧ ¬ ∃ r ∈ tbl, r.name = n)) ∧
    (reg.filter (fun n => ¬ (appliedNames tbl).contains n) = [] →
        Up env reg tbl = ⟨tbl, emptyTrace, none⟩) ∧
    (reg.filter (fun n => ¬ (appliedNames tbl).contains n)).Pairwise
        (fun a b => strLt a b = true) ∧
    (Up env reg tbl).err = none ∧
    (Up env reg tbl).tbl = tbl ++
        (reg.filter (fun n => ¬ (appliedNames tbl).contains n)).map
          (fun n => ⟨n, getLastBatchNumber tbl + 1⟩) ∧
    (Up env reg tbl).trace.executed =
        (reg.filter (fun n => ¬ (appliedNames tbl).contains n)).map
          (fun n => (n, dirUp)) := by
  have hmem : ∀ n, n ∈ reg.filter (fun n => ¬ (appliedNames tbl).contains n) ↔
      (n ∈ reg ∧ ¬ ∃ r ∈ tbl, r.name = n) := by
    intro n
    rw [List.mem_filter]
    constructor
    · rintro ⟨hr, hp⟩
      refine ⟨hr, fun hex => ?_⟩
      have hmm : n ∈ appliedNames tbl := (mem_appliedNames tbl n).mpr hex
      simp [hmm] at hp
    · rintro ⟨hr, hnex⟩
      refine ⟨hr, ?_⟩
      have hmm : n ∉ appliedNames tbl :=
        fun hmem' => hnex ((mem_appliedNames tbl n).mp hmem')
      simp [hmm]
  have hnoop : reg.filter (fun n => ¬ (appliedNames tbl).contains n) = [] →
      Up env reg tbl = ⟨tbl, emptyTrace, none⟩ := by
    intro hempty
    unfold Up
    rw [hempty]
    rfl
  refine ⟨hmem, hnoop, List.Pairwise.filter _ hsort, ?_, ?_, ?_⟩
  all_goals
    by_cases hpend : reg.filter (fun n => ¬ (appliedNames tbl).contains n) = []
  · rw [hnoop hpend]
  · unfold Up
    rw [if_neg hpend, upFrom_ok env (nextBatchNumber tbl) _ tbl hok]
  · rw [hnoop hpend, hpend]
    simp
  · unfold Up
    rw [if_neg hpend, upFrom_ok env (nextBatchNumber tbl) _ tbl hok]
    rfl
  · rw [hnoop hpend, hpend]
    simp [emptyTrace]
  · unfold Up
    rw [if_neg hpend, upFrom_ok env (nextBatchNumber tbl) _ tbl hok]

/-- Environment in which every migration body and hook succeeds. -/
def envAll : MEnv := ⟨fun _ => true, fun _ => true, fun _ _ => true⟩

/-- C1 witness registry: two valid names in ascending order. -/
def regC1 : List String := ["20240101000000_a", "20240102000000_b"]

/-- C1 witness: running Up on an empty tracking table records both
registered migrations with batch 1 in ascending name order. -/
theorem up_spec_w :
    regC1.Pairwise (fun a b => strLt a b = true) ∧
    (Up envAll regC1 []).err = none ∧
    (Up envAll regC1 []).tbl =
      [⟨"20240101000000_a", 1⟩, ⟨"20240102000000_b", 1⟩] ∧
    (Up envAll regC1 []).trace.executed =
      [("20240101000000_a", dirUp), ("20240102000000_b", dirUp)] := by
  have h := up_spec envAll regC1 [] (by decide)
    (by intro n _; exact ⟨rfl, rfl⟩)
  refine ⟨by decide, h.2.2.2.1, ?_, ?_⟩
  · rw [h.2.2.2.2.1]; decide
  · rw [h.2.2.2.2.2]; decide

theorem foldl_max_le_init : ∀ (bs : List Int) (b : Int), b ≤ bs.foldl max b := by
  intro bs
  induction bs with
  | nil => intro b; exact le_refl b
  | cons c cs ih =>
    intro b
    exact le_trans (le_max_left b c) (ih (max b c))

theorem foldl_max_mem : ∀ (bs : List Int) (b : Int),
    bs.foldl max b = b ∨ bs.foldl max b ∈ bs := by
  intro bs
  induction bs with
  | nil => intro b; exact Or.inl rfl
  | cons c cs ih =>
    intro b
    rcases ih (max b c) with h | h
    · rcases max_choice b c with hm | hm
      · left; rw [List.foldl_cons, h, hm]
      · right; rw [List.foldl_cons, h, hm]; exact List.mem_cons_self _ _
    · right; exact List.mem_cons_of_mem _ h

theorem le_foldl_max : ∀ (bs : List Int) (b x : Int), x ∈ bs → x ≤ bs.foldl max b := by
  intro bs
  induction bs with
  | nil => intro b x hx; simp at hx
  | cons c cs ih =>
    intro b x hx
    rcases List.mem_cons.mp hx with hx | hx
    · rw [hx, List.foldl_cons]
      exact le_trans (le_max_right b c) (foldl_max_le_init cs (max b c))
    · exact ih (max b c) x hx

theorem getLastBatchNumber_attained (tbl : List MigRecord) (hne : tbl ≠ []) :
    ∃ r ∈ tbl, r.batch = getLastBatchNumber tbl := by
  cases tbl with
  | nil => exact absurd rfl hne
  | cons r rs =>
    unfold getLastBatchNumber
    simp only [List.map_cons]
    rcases foldl_max_mem (rs.map (fun r => r.batch)) r.batch with h | h
    · exact ⟨r, List.mem_cons_self _ _, h.symm⟩
    · rcases List.mem_map.mp h with ⟨r', hr', hb⟩
      exact ⟨r', List.mem_cons_of_mem _ hr', hb⟩

theorem batch_le_getLastBatchNumber (tbl : List MigRecord) (r : MigRecord)
    (hr : r ∈ tbl) : r.batch ≤ getLastBatchNumber tbl := by
  cases tbl with
  | nil => simp at hr
  | cons s rs =>
    unfold getLastBatchNumber
    simp only [List.map_cons]
    rcases List.mem_cons.mp hr with h | h
    · rw [h]; exact foldl_max_le_init _ _
    · exact le_foldl_max _ _ _ (List.mem_map_of_mem _ h)

theorem getLastBatchNumber_pos (tbl : List MigRecord)
    (hpos : ∀ r ∈ tbl, 0 < r.batch) (hne : tbl ≠ []) :
    0 < getLastBatchNumber tbl := by
  rcases getLastBatchNumber_attained tbl hne with ⟨r, hr, hb⟩
  rw [← hb]
  exact hpos r hr

theorem rollbackFrom_ok (env : MEnv) (reg : List String) :
    ∀ (recs : List MigRecord) (tbl : List MigRecord),
      (∀ r ∈ recs, regLookup reg r.name = true ∧
        env.beforeOk r.name dirDown = true ∧ env.downOk r.name = true) →
      rollbackFrom env reg recs tbl =
        ⟨tbl.filter (fun x => ¬ (recs.map (fun r => r.name)).contains x.name),
         ⟨recs.map (fun r => (r.name, dirDown)),
          recs.map (fun r => (r.name, dirDown)),
          recs.map (fun r => (r.name, dirDown))⟩,
         none⟩ := by
  intro recs
  induction recs with
  | nil => intro tbl _; simp [rollbackFrom, emptyTrace]
  | cons r rest ih =>
    intro tbl hok
    have hr := hok r (List.mem_cons_self _ _)
    have hrest : ∀ m ∈ rest, regLookup reg m.name = true ∧
        env.beforeOk m.name dirDown = true ∧ env.downOk m.name = true :=
      fun m hm => hok m (List.mem_cons_of_mem _ hm)
    have hrec := ih (removeRec tbl r.name) hrest
    unfold rollbackFrom
    rw [hr.1, hr.2.1, hr.2.2]
    simp only [Bool.true_eq_false, if_false]
    rw [hrec]
    have htbl : (removeRec tbl r.name).filter
        (fun x => ¬ (rest.map (fun r => r.name)).contains x.name) =
        tbl.filter (fun x => ¬ ((r :: rest).map (fun r => r.name)).contains x.name) := by
      rw [removeRec, List.filter_filter]
      apply List.filter_congr
      intro x _
      simp only [List.map_cons, List.contains_cons]
      cases hx : x.name == r.name
      · have : (x.name ≠ r.name) := by simpa using hx
        simp [this, hx]
      · have : x.name = r.name := by simpa using hx
        simp [this]
    rw [htbl]
    simp

theorem drop_reverse_take {α : Type} (l : List α) (k : Nat) :
    (l.drop (l.length - k)).reverse = l.reverse.take k := by
  have h := List.rtake_eq_reverse_take_reverse (l := l) (n := k)
  rw [List.rtake] at h
  rw [h, List.reverse_reverse]

theorem contains_iff_mem {α : Type} [BEq α] [LawfulBEq α] (l : List α) (a : α) :
    l.contains a = true ↔ a ∈ l := by
  simp

/-- C2: Rollback(0) rolls back exactly the rows of the most recent batch in
descending-name order; Rollback(n) for n>0 rolls back exactly
min(n, totalApplied) rows most-recent-first (the reversed tail of the
name-ascending applied list); every rolled-back row is removed from the
tracking table and nothing else is. -/
theorem rollback_spec (env : MEnv) (reg : List String) (tbl : List MigRecord)
    (hnd : (tbl.map (fun r => r.name)).Nodup)
    (hpos : ∀ r ∈ tbl, 0 < r.batch)
    (hreg : ∀ r ∈ tbl, regLookup reg r.name = true)
    (henv : ∀ r ∈ tbl, env.beforeOk r.name dirDown = true ∧ env.downOk r.name = true) :
    ((Rollback env reg tbl 0).err = none ∧
     (Rollback env reg tbl 0).trace.executed =
       ((getApplied tbl).filter
         (fun r => r.batch = getLastBatchNumber tbl)).reverse.map
           (fun r => (r.name, dirDown)) ∧
     (Rollback env reg tbl 0).tbl =
       tbl.filter (fun r => ¬ r.batch = getLastBatchNumber tbl) ∧
     (((getApplied tbl).filter
         (fun r => r.batch = getLastBatchNumber tbl)).reverse.map
           (fun r => r.name)).Pairwise (fun a b => strLe b a = true)) ∧
    (∀ n : Int, 0 < n →
      (Rollback env reg tbl n).err = none ∧
      (Rollback env reg tbl n).trace.executed =
        ((getApplied tbl).reverse.take (min n.toNat tbl.length)).map
          (fun r => (r.name, dirDown)) ∧
      (Rollback env reg tbl n).tbl =
        tbl.filter (fun x =>
          ¬ (((getApplied tbl).reverse.take (min n.toNat tbl.length)).map
              (fun r => r.name)).contains x.name) ∧
      ((getApplied tbl).reverse.take (min n.toNat tbl.length)).length =
        min n.toNat tbl.length ∧
      (((getApplied tbl).reverse.take (min n.toNat tbl.length)).map
          (fun r => r.name)).Pairwise (fun a b => strLe b a = true)) := by
  have hlen : (getApplied tbl).length = tbl.length := (getApplied_perm tbl).length_eq
  have hsorted := getApplied_sorted tbl
  constructor
  · -- steps = 0
    by_cases htne : tbl = []
    · subst htne
      refine ⟨rfl, by simp [getApplied, Rollback, rollbackRecords, getLastBatch,
        getLastBatchNumber, emptyTrace], by simp [Rollback, rollbackRecords,
        getLastBatch, getLastBatchNumber, emptyTrace], by simp [getApplied]⟩
    · have hmbpos : 0 < getLastBatchNumber tbl := getLastBatchNumber_pos tbl hpos htne
      have hmbne : getLastBatchNumber tbl ≠ 0 := ne_of_gt hmbpos
      have hrecseq : rollbackRecords tbl 0 =
          (getApplied tbl).filter (fun r => r.batch = getLastBatchNumber tbl) := by
        rw [rollbackRecords, if_pos rfl, getLastBatch, if_neg hmbne, getByBatch]
      have hbne : (getApplied tbl).filter
          (fun r => r.batch = getLastBatchNumber tbl) ≠ [] := by
        rcases getLastBatchNumber_attained tbl htne with ⟨r, hr, hb⟩
        have hrmem : r ∈ (getApplied tbl).filter
            (fun r => r.batch = getLastBatchNumber tbl) :=
          List.mem_filter.mpr ⟨(getApplied_perm tbl).mem_iff.mpr hr, by simp [hb]⟩
        exact List.ne_nil_of_mem hrmem
      have hsub : ∀ r ∈ ((getApplied tbl).filter
          (fun r => r.batch = getLastBatchNumber tbl)).reverse, r ∈ tbl := by
        intro r hr
        rw [List.mem_reverse] at hr
        exact (getApplied_perm tbl).mem_iff.mp (List.mem_filter.mp hr).1
      have hok : ∀ r ∈ ((getApplied tbl).filter
          (fun r => r.batch = getLastBatchNumber tbl)).reverse,
          regLookup reg r.name = true ∧
          env.beforeOk r.name dirDown = true ∧ env.downOk r.name = true := by
        intro r hr
        exact ⟨hreg r (hsub r hr), (henv r (hsub r hr)).1, (henv r (hsub r hr)).2⟩
      have hrb : Rollback env reg tbl 0 =
          rollbackFrom env reg (((getApplied tbl).filter
            (fun r => r.batch = getLastBatchNumber tbl)).reverse) tbl := by
        rw [Rollback, hrecseq, if_neg hbne, if_pos rfl]
      rw [hrb, rollbackFrom_ok env reg _ tbl hok]
      refine ⟨rfl, rfl, ?_, ?_⟩
      · show tbl.filter _ = tbl.filter _
        apply List.filter_congr
        intro x hx
        have hiff : ((((getApplied tbl).filter
            (fun r => r.batch = getLastBatchNumber tbl)).reverse.map
              (fun r => r.name)).contains x.name = true) ↔
            x.batch = getLastBatchNumber tbl := by
          rw [contains_iff_mem, List.mem_map]
          constructor
          · rintro ⟨y, hy, hyn⟩
            rw [List.mem_reverse] at hy
            have hyf := List.mem_filter.mp hy
            have hytbl : y ∈ tbl := (getApplied_perm tbl).mem_iff.mp hyf.1
            have hxy : y = x :=
              List.inj_on_of_nodup_map hnd hytbl hx hyn
            rw [← hxy]
            simpa using hyf.2
          · intro hb
            refine ⟨x, ?_, rfl⟩
            rw [List.mem_reverse]
            exact List.mem_filter.mpr ⟨(getApplied_perm tbl).mem_iff.mpr hx, by simp [hb]⟩
        rw [decide_eq_decide]
        exact not_congr hiff
      · rw [List.pairwise_map, List.pairwise_reverse]
        exact List.Pairwise.imp (fun h => by
          unfold recLe at h
          exact h) (List.Pairwise.filter _ hsorted)
  · -- steps = n > 0
    intro n hn
    by_cases htne : tbl = []
    · subst htne
      have hrr : rollbackRecords ([] : List MigRecord) n = [] := by
        rw [rollbackRecords, if_neg (ne_of_gt hn), getLastNMigrations,
          if_neg (not_le.mpr hn)]
        simp [getApplied]
      have hres : Rollback env reg [] n = ⟨[], emptyTrace, none⟩ := by
        unfold Rollback
        rw [hrr]
        simp
      rw [hres]
      refine ⟨rfl, ?_, ?_, ?_, ?_⟩ <;> simp [getApplied, emptyTrace]
    · have happne : getApplied tbl ≠ [] := by
        intro h
        exact htne (List.eq_nil_of_length_eq_zero (by rw [← hlen, h]; rfl))
      have hnle : ¬ n ≤ 0 := not_le.mpr hn
      have hrecseq : rollbackRecords tbl n =
          (getApplied tbl).reverse.take (min n.toNat tbl.length) := by
        rw [rollbackRecords]
        rw [if_neg (by exact ne_of_gt hn)]
        rw [getLastNMigrations, if_neg hnle]
        simp only [List.isEmpty_eq_true, happne, if_false]
        rw [drop_reverse_take, hlen]
      have htl : 0 < tbl.length := by
        cases tbl with
        | nil => exact absurd rfl htne
        | cons a l => simp
      have hkpos : 0 < min n.toNat tbl.length := by
        apply lt_min
        · omega
        · exact htl
      have hrne : (getApplied tbl).reverse.take (min n.toNat tbl.length) ≠ [] := by
        apply List.ne_nil_of_length_pos
        rw [List.length_take, List.length_reverse, hlen]
        omega
      have hsub : ∀ r ∈ (getApplied tbl).reverse.take (min n.toNat tbl.length),
          r ∈ tbl := by
        intro r hr
        have hr' : r ∈ (getApplied tbl).reverse := (List.take_sublist _ _).mem hr
        rw [List.mem_reverse] at hr'
        exact (getApplied_perm tbl).mem_iff.mp hr'
      have hok : ∀ r ∈ (getApplied tbl).reverse.take (min n.toNat tbl.length),
          regLookup reg r.name = true ∧
          env.beforeOk r.name dirDown = true ∧ env.downOk r.name = true := by
        intro r hr
        exact ⟨hreg r (hsub r hr), (henv r (hsub r hr)).1, (henv r (hsub r hr)).2⟩
      have hrb : Rollback env reg tbl n =
          rollbackFrom env reg
            ((getApplied tbl).reverse.take (min n.toNat tbl.length)) tbl := by
        rw [Rollback, hrecseq, if_neg hrne, if_neg (by exact ne_of_gt hn)]
      rw [hrb, rollbackFrom_ok env reg _ tbl hok]
      refine ⟨rfl, rfl, rfl, ?_, ?_⟩
      · rw [List.length_take, List.length_reverse, hlen]
        exact min_eq_left (min_le_right _ _)
      · rw [List.pairwise_map]
        apply List.Pairwise.sublist (List.take_sublist _ _)
        rw [List.pairwise_reverse]
        exact List.Pairwise.imp (fun h => by
          unfold recLe at h
          exact h) hsorted

/-- C2 witness tracking table: two rows, one batch. -/
def tblC2 : List MigRecord :=
  [⟨"20240101000000_a", 1⟩, ⟨"20240102000000_b", 1⟩]

/-- C2 witness: Rollback(0) on a one-batch two-row table rolls back b then
a and empties the table; Rollback(1) removes only the most recent row. -/
theorem rollback_spec_w :
    (tblC2.map (fun r => r.name)).Nodup ∧
    (Rollback envAll regC1 tblC2 0).err = none ∧
    (Rollback envAll regC1 tblC2 0).trace.executed =
      [("20240102000000_b", dirDown), ("20240101000000_a", dirDown)] ∧
    (Rollback envAll regC1 tblC2 0).tbl = [] ∧
    (Rollback envAll regC1 tblC2 1).tbl = [⟨"20240101000000_a", 1⟩] := by
  have h := rollback_spec envAll regC1 tblC2 (by decide) (by decide)
    (by decide) (by intro r _; exact ⟨rfl, rfl⟩)
  refine ⟨by decide, h.1.1, ?_, ?_, ?_⟩
  · rw [h.1.2.1]; decide
  · rw [h.1.2.2.1]; decide
  · rw [(h.2 1 (by decide)).2.2.1]; decide

theorem upFrom_fail (env : MEnv) (batch : Int) (bad : String) (rest : List String)
    (hbadBefore : env.beforeOk bad dirUp = true) (hbadUp : env.upOk bad = false) :
    ∀ (good : List String) (tbl : List MigRecord),
      (∀ n ∈ good, env.beforeOk n dirUp = true ∧ env.upOk n = true) →
      upFrom env batch (good ++ bad :: rest) tbl =
        ⟨tbl ++ good.map (fun n => ⟨n, batch⟩),
         ⟨(good ++ [bad]).map (fun n => (n, dirUp)),
          (good ++ [bad]).map (fun n => (n, dirUp)),
          good.map (fun n => (n, dirUp))⟩,
         some (MErr.migration bad dirUp)⟩ := by
  intro good
  induction good with
  | nil =>
    intro tbl _
    simp only [List.nil_append, List.map_nil, List.map_cons, List.append_nil]
    unfold upFrom
    rw [hbadBefore, hbadUp]
    simp
  | cons n gs ih =>
    intro tbl hok
    have hn := hok n (List.mem_cons_self _ _)
    have hgs : ∀ m ∈ gs, env.beforeOk m dirUp = true ∧ env.upOk m = true :=
      fun m hm => hok m (List.mem_cons_of_mem _ hm)
    have hrec := ih (tbl ++ [MigRecord.mk n batch]) hgs
    show upFrom env batch (n :: (gs ++ bad :: rest)) tbl = _
    unfold upFrom
    rw [hn.1, hn.2]
    simp only [Bool.true_eq_false, if_false]
    rw [hrec]
    simp [List.append_assoc]

theorem rollbackFrom_fail (env : MEnv) (reg : List String) (bad : MigRecord)
    (rest : List MigRecord)
    (hbadReg : regLookup reg bad.name = true)
    (hbadBefore : env.beforeOk bad.name dirDown = true)
    (hbadDown : env.downOk bad.name = false) :
    ∀ (good : List MigRecord) (tbl : List MigRecord),
      (∀ r ∈ good, regLookup reg r.name = true ∧
        env.beforeOk r.name dirDown = true ∧ env.downOk r.name = true) →
      rollbackFrom env reg (good ++ bad :: rest) tbl =
        ⟨tbl.filter (fun x => ¬ (good.map (fun r => r.name)).contains x.name),
         ⟨(good ++ [bad]).map (fun r => (r.name, dirDown)),
          (good ++ [bad]).map (fun r => (r.name, dirDown)),
          good.map (fun r => (r.name, dirDown))⟩,
         some (MErr.migration bad.name dirDown)⟩ := by
  intro good
  induction good with
  | nil =>
    intro tbl _
    simp only [List.nil_append, List.map_nil, List.map_cons, List.append_nil]
    unfold rollbackFrom
    rw [hbadReg, hbadBefore, hbadDown]
    simp
  | cons r gs ih =>
    intro tbl hok
    have hr := hok r (List.mem_cons_self _ _)
    have hgs : ∀ m ∈ gs, regLookup reg m.name = true ∧
        env.beforeOk m.name dirDown = true ∧ env.downOk m.name = true :=
      fun m hm => hok m (List.mem_cons_of_mem _ hm)
    have hrec := ih (removeRec tbl r.name) hgs
    show rollbackFrom env reg (r :: (gs ++ bad :: rest)) tbl = _
    unfold rollbackFrom
    rw [hr.1, hr.2.1, hr.2.2]
    simp only [Bool.true_eq_false, if_false]
    rw [hrec]
    have htbl : (removeRec tbl r.name).filter
        (fun x => ¬ (gs.map (fun r => r.name)).contains x.name) =
        tbl.filter (fun x => ¬ ((r :: gs).map (fun r => r.name)).contains x.name) := by
      rw [removeRec, List.filter_filter]
      apply List.filter_congr
      intro x _
      simp only [List.map_cons, List.contains_cons]
      cases hx : x.name == r.name
      · have : (x.name ≠ r.name) := by simpa using hx
        simp [this, hx]
      · have : x.name = r.name := by simpa using hx
        simp [this]
    rw [htbl]
    simp

/-- C3: if migration k of n pending migrations fails during Up, migrations
1..k-1 stay recorded (with the batch they were just given) and k+1..n are
never executed; analogously a Rollback stops at its first Down failure:
the earlier records stay removed, the later ones stay applied. -/
theorem failure_stops (env : MEnv) (reg : List String) (tbl : List MigRecord) :
    (∀ (good : List String) (bad : String) (rest : List String),
      reg.filter (fun n => ¬ (appliedNames tbl).contains n) = good ++ bad :: rest →
      (∀ n ∈ good, env.beforeOk n dirUp = true ∧ env.upOk n = true) →
      env.beforeOk bad dirUp = true → env.upOk bad = false →
      (Up env reg tbl).err = some (MErr.migration bad dirUp) ∧
      (Up env reg tbl).tbl = tbl ++
        good.map (fun n => ⟨n, getLastBatchNumber tbl + 1⟩) ∧
      (Up env reg tbl).trace.executed = (good ++ [bad]).map (fun n => (n, dirUp))) ∧
    (∀ (steps : Int) (good : List MigRecord) (bad : MigRecord) (rest : List MigRecord),
      (if steps = 0 then (rollbackRecords tbl steps).reverse
       else rollbackRecords tbl steps) = good ++ bad :: rest →
      (∀ r ∈ good, regLookup reg r.name = true ∧
        env.beforeOk r.name dirDown = true ∧ env.downOk r.name = true) →
      regLookup reg bad.name = true → env.beforeOk bad.name dirDown = true →
      env.downOk bad.name = false →
      (Rollback env reg tbl steps).err = some (MErr.migration bad.name dirDown) ∧
      (Rollback env reg tbl steps).tbl =
        tbl.filter (fun x => ¬ (good.map (fun r => r.name)).contains x.name) ∧
      (Rollback env reg tbl steps).trace.executed =
        (good ++ [bad]).map (fun r => (r.name, dirDown))) := by
  constructor
  · intro good bad rest hsplit hgood hb1 hb2
    have hpne : reg.filter (fun n => ¬ (appliedNames tbl).contains n) ≠ [] := by
      rw [hsplit]; simp
    have h := upFrom_fail env (nextBatchNumber tbl) bad rest hb1 hb2 good tbl hgood
    unfold Up
    rw [if_neg hpne, hsplit, h]
    exact ⟨rfl, rfl, rfl⟩
  · intro steps good bad rest hsplit hgood hbr hb1 hb2
    have hrne : rollbackRecords tbl steps ≠ [] := by
      intro hnil
      rw [hnil] at hsplit
      cases hs : decide (steps = 0) with
      | true => rw [if_pos (of_decide_eq_true hs)] at hsplit; simp at hsplit
      | false => rw [if_neg (of_decide_eq_false hs)] at hsplit; simp at hsplit
    have h := rollbackFrom_fail env reg bad rest hbr hb1 hb2 good tbl hgood
    unfold Rollback
    rw [if_neg hrne, hsplit, h]
    exact ⟨rfl, rfl, rfl⟩

/-- Environment where migration 20240102000000_b fails on the way up. -/
def envFailUpB : MEnv :=
  ⟨fun n => !(n == "20240102000000_b"), fun _ => true, fun _ _ => true⟩

/-- Environment where migration 20240102000000_b fails on the way down. -/
def envFailDownB : MEnv :=
  ⟨fun _ => true, fun n => !(n == "20240102000000_b"), fun _ _ => true⟩

/-- C3 witness registry: three valid names in ascending order. -/
def regC3 : List String :=
  ["20240101000000_a", "20240102000000_b", "20240103000000_c"]

/-- C3 witness: with b of a/b/c failing Up, a stays recorded and c never
executes; with b failing Down during Rollback(0) of a one-batch a/b table,
b's row stays while nothing earlier is restored. -/
theorem failure_stops_w :
    (Up envFailUpB regC3 []).err = some (MErr.migration "20240102000000_b" dirUp) ∧
    (Up envFailUpB regC3 []).tbl = [⟨"20240101000000_a", 1⟩] ∧
    (Up envFailUpB regC3 []).trace.executed =
      [("20240101000000_a", dirUp), ("20240102000000_b", dirUp)] ∧
    (Rollback envFailDownB regC1 tblC2 0).err =
      some (MErr.migration "20240102000000_b" dirDown) ∧
    (Rollback envFailDownB regC1 tblC2 0).tbl = tblC2 ∧
    (Rollback envFailDownB regC1 tblC2 0).trace.executed =
      [("20240102000000_b", dirDown)] := by
  have hup := (failure_stops envFailUpB regC3 []).1
    ["20240101000000_a"] "20240102000000_b" ["20240103000000_c"]
    (by decide) (by decide) (by decide) (by decide)
  have hdown := (failure_stops envFailDownB regC1 tblC2).2
    0 [] ⟨"20240102000000_b", 1⟩ [⟨"20240101000000_a", 1⟩]
    (by decide) (by decide) (by decide) (by decide) (by decide)
  refine ⟨hup.1, ?_, ?_, hdown.1, ?_, ?_⟩
  · rw [hup.2.1]; decide
  · rw [hup.2.2]; decide
  · rw [hdown.2.1]; decide
  · rw [hdown.2.2]; decide

theorem resetFrom_ok (env : MEnv) (reg : List String) :
    ∀ (recs : List MigRecord) (tbl : List MigRecord),
      (∀ r ∈ recs, regLookup reg r.name = true ∧ env.downOk r.name = true) →
      resetFrom env reg recs tbl =
        ⟨tbl.filter (fun x => ¬ (recs.map (fun r => r.name)).contains x.name),
         ⟨recs.map (fun r => (r.name, dirDown)),
          [],
          recs.map (fun r => (r.name, dirDown))⟩,
         none⟩ := by
  intro recs
  induction recs with
  | nil => intro tbl _; simp [resetFrom, emptyTrace]
  | cons r rest ih =>
    intro tbl hok
    have hr := hok r (List.mem_cons_self _ _)
    have hrest : ∀ m ∈ rest, regLookup reg m.name = true ∧ env.downOk m.name = true :=
      fun m hm => hok m (List.mem_cons_of_mem _ hm)
    have hrec := ih (removeRec tbl r.name) hrest
    unfold resetFrom
    rw [hr.1, hr.2]
    simp only [Bool.true_eq_false, if_false]
    rw [hrec]
    have htbl : (removeRec tbl r.name).filter
        (fun x => ¬ (rest.map (fun r => r.name)).contains x.name) =
        tbl.filter (fun x => ¬ ((r :: rest).map (fun r => r.name)).contains x.name) := by
      rw [removeRec, List.filter_filter]
      apply List.filter_congr
      intro x _
      simp only [List.map_cons, List.contains_cons]
      cases hx : x.name == r.name
      · have : (x.name ≠ r.name) := by simpa using hx
        simp [this, hx]
      · have : x.name = r.name := by simpa using hx
        simp [this]
    rw [htbl]
    simp

/-- C8 counterexample environment: every before-hook fails. -/
def envBeforeFail : MEnv := ⟨fun _ => true, fun _ => true, fun _ _ => false⟩

/-- C8 counterexample registry. -/
def regC8 : List String := ["20240101000000_a"]

/-- C8 counterexample table: one applied row in batch 1. -/
def tblC8 : List MigRecord := [⟨"20240101000000_a", 1⟩]

/-- C8 counterexample: on a single-batch table the claimed "same per-item
contract as Rollback" would force Reset to behave like Rollback(0), but
with a failing before-hook Rollback(0) aborts before executing anything
while Reset executes the Down and removes the row: the source's Reset
never invokes before-hooks. -/
theorem reset_not_rollback_contract :
    Reset envBeforeFail regC8 tblC8 ≠ Rollback envBeforeFail regC8 tblC8 0 ∧
    (Rollback envBeforeFail regC8 tblC8 0).err =
      some (MErr.beforeHook "20240101000000_a") ∧
    (Reset envBeforeFail regC8 tblC8).err = none ∧
    (Reset envBeforeFail regC8 tblC8).trace.beforeCalls = [] ∧
    (Rollback envBeforeFail regC8 tblC8 0).trace.beforeCalls =
      [("20240101000000_a", dirDown)] := by
  refine ⟨?_, by decide, by decide, by decide, by decide⟩
  decide

/-- C8 (amended): Reset rolls back all applied migrations in descending
name order and removes every tracking row on success, executing Down and
invoking the after-hook pipeline for each migration, but it does not invoke
before-hooks (unlike Rollback's per-item contract). -/
theorem reset_spec (env : MEnv) (reg : List String) (tbl : List MigRecord)
    (hreg : ∀ r ∈ tbl, regLookup reg r.name = true)
    (hdown : ∀ r ∈ tbl, env.downOk r.name = true) :
    (Reset env reg tbl).err = none ∧
    (Reset env reg tbl).tbl = [] ∧
    (Reset env reg tbl).trace.executed =
      (getApplied tbl).reverse.map (fun r => (r.name, dirDown)) ∧
    (Reset env reg tbl).trace.beforeCalls = [] ∧
    (Reset env reg tbl).trace.afterCalls =
      (getApplied tbl).reverse.map (fun r => (r.name, dirDown)) ∧
    ((getApplied tbl).reverse.map (fun r => r.name)).Pairwise
      (fun a b => strLe b a = true) := by
  have hsub : ∀ r ∈ (getApplied tbl).reverse, r ∈ tbl := by
    intro r hr
    rw [List.mem_reverse] at hr
    exact (getApplied_perm tbl).mem_iff.mp hr
  have hok : ∀ r ∈ (getApplied tbl).reverse,
      regLookup reg r.name = true ∧ env.downOk r.name = true :=
    fun r hr => ⟨hreg r (hsub r hr), hdown r (hsub r hr)⟩
  have h := resetFrom_ok env reg ((getApplied tbl).reverse) tbl hok
  rw [Reset, h]
  refine ⟨rfl, ?_, rfl, rfl, rfl, ?_⟩
  · rw [List.filter_eq_nil_iff]
    intro x hx
    have hmemx : x.name ∈ (getApplied tbl).reverse.map (fun r => r.name) := by
      rw [List.mem_map]
      exact ⟨x, List.mem_reverse.mpr ((getApplied_perm tbl).mem_iff.mpr hx), rfl⟩
    simp only [decide_eq_true_eq, Decidable.not_not]
    simp
    exact ⟨x, (getApplied_perm tbl).mem_iff.mpr hx, rfl⟩
  · rw [List.pairwise_map, List.pairwise_reverse]
    exact List.Pairwise.imp (fun h => by
      unfold recLe at h
      exact h) (getApplied_sorted tbl)

/-- C8 witness: Reset on the two-row one-batch table executes b then a with
no before-hook invocations and empties the table. -/
theorem reset_spec_w :
    (Reset envAll regC1 tblC2).err = none ∧
    (Reset envAll regC1 tblC2).tbl = [] ∧
    (Reset envAll regC1 tblC2).trace.executed =
      [("20240102000000_b", dirDown), ("20240101000000_a", dirDown)] ∧
    (Reset envAll regC1 tblC2).trace.beforeCalls = [] := by
  have h := reset_spec envAll regC1 tblC2 (by decide) (by intro r _; rfl)
  refine ⟨h.1, h.2.1, ?_, h.2.2.2.1⟩
  rw [h.2.2.1]; decide

/-- Substring needle: the word DROP. -/
def needleDrop : String := "DROP"

/-- Substring needle: the head of SQLite's drop-all query. -/
def needleSelectMaster : String := "SELECT name FROM sqlite_master"

/-- C9: only PostgreSQL's CompileDropAllTables emits SQL that drops tables
(DROP SCHEMA public CASCADE; CREATE SCHEMA public); SQLite returns a mere
SELECT over sqlite_master and MySQL returns SET FOREIGN_KEY_CHECKS = 0 —
neither even contains the word DROP — yet Fresh configured with those
grammars executes that statement and then runs Up. -/
theorem drop_all_tables_spec :
    postgresDropAllTables = "DROP SCHEMA public CASCADE; CREATE SCHEMA public" ∧
    mysqlDropAllTables = "SET FOREIGN_KEY_CHECKS = 0" ∧
    strHasSub sqliteDropAllTables needleSelectMaster = true ∧
    strHasSub postgresDropAllTables needleDrop = true ∧
    strHasSub sqliteDropAllTables needleDrop = false ∧
    strHasSub mysqlDropAllTables needleDrop = false ∧
    (∀ (env : MEnv) (reg : List String) (tbl : List MigRecord),
      Fresh env (some sqliteGrammarM) reg tbl =
        (some sqliteDropAllTables, Up env reg tbl) ∧
      Fresh env (some mysqlGrammarM) reg tbl =
        (some mysqlDropAllTables, Up env reg tbl) ∧
      Fresh env (some postgresGrammarM) reg tbl =
        (some postgresDropAllTables, Up env reg tbl) ∧
      Fresh env none reg tbl = (none, ⟨tbl, emptyTrace, some MErr.noGrammar⟩)) := by
  refine ⟨by decide, by decide, by decide, by decide, by decide, by decide, ?_⟩
  intro env reg tbl
  exact ⟨rfl, rfl, rfl, rfl⟩

/-! ## Tracker SQL text (tracker.go): dialect-independent statements -/

/-- EnsureTable's CREATE TABLE, byte-for-byte from the source, including
the SERIAL PRIMARY KEY id column. -/
def ensureTableSQL (t : String) : String :=
  "CREATE TABLE IF NOT EXISTS " ++ t ++
    " (\n\t\tid         SERIAL PRIMARY KEY,\n\t\tmigration  VARCHAR(255) NOT NULL UNIQUE,\n\t\tbatch      INTEGER NOT NULL,\n\t\tcreated_at TIMESTAMP NOT NULL DEFAULT CURRENT_TIMESTAMP\n\t)"

/-- GetApplied's query. -/
def getAppliedSQL (t : String) : String :=
  "SELECT migration, batch, created_at FROM " ++ t ++ " ORDER BY migration ASC"

/-- GetByBatch's query with its $1 placeholder. -/
def getByBatchSQL (t : String) : String :=
  "SELECT migration, batch, created_at FROM " ++ t ++
    " WHERE batch = $1 ORDER BY migration ASC"

/-- GetLastBatchNumber's query. -/
def lastBatchSQL (t : String) : String :=
  "SELECT COALESCE(MAX(batch), 0) FROM " ++ t

/-- Record's INSERT with its $1/$2 placeholders. -/
def recordSQL (t : String) : String :=
  "INSERT INTO " ++ t ++ " (migration, batch) VALUES ($1, $2)"

/-- Remove's DELETE with its $1 placeholder. -/
def removeSQL (t : String) : String :=
  "DELETE FROM " ++ t ++ " WHERE migration = $1"

/-- Placeholder needle $1. -/
def needleP1 : String := "$1"

/-- Placeholder needle $2. -/
def needleP2 : String := "$2"

/-- Needle for the SERIAL PRIMARY KEY id column declaration. -/
def needleSerial : String := "id         SERIAL PRIMARY KEY"

/-- Question-mark needle (MySQL/SQLite placeholder style). -/
def needleQM : String := "?"

theorem strHasSub_append_right (pre mid post needle : String)
    (h : strHasSub post needle = true) :
    strHasSub (pre ++ mid ++ post) needle = true := by
  unfold strHasSub at h ⊢
  rw [String.data_append, String.data_append, List.append_assoc]
  exact hasSubChars_append_right needle.data (mid.data ++ post.data) pre.data
    (hasSubChars_append_right needle.data post.data mid.data h)

/-- C10: every parameterized statement the Tracker issues uses
PostgreSQL-style $1/$2 placeholders (never MySQL/SQLite-style ?), and
EnsureTable declares id as SERIAL PRIMARY KEY, for every table name; these
statements are built from the table name alone, never from a grammar, as
the closed-form equations at the default table name show. -/
theorem tracker_sql_spec :
    (∀ t : String,
      strHasSub (getByBatchSQL t) needleP1 = true ∧
      strHasSub (recordSQL t) needleP1 = true ∧
      strHasSub (recordSQL t) needleP2 = true ∧
      strHasSub (removeSQL t) needleP1 = true ∧
      strHasSub (ensureTableSQL t) needleSerial = true) ∧
    getByBatchSQL "migrations" =
      "SELECT migration, batch, created_at FROM migrations WHERE batch = $1 ORDER BY migration ASC" ∧
    recordSQL "migrations" =
      "INSERT INTO migrations (migration, batch) VALUES ($1, $2)" ∧
    removeSQL "migrations" = "DELETE FROM migrations WHERE migration = $1" ∧
    strHasSub (getByBatchSQL "migrations") needleQM = false ∧
    strHasSub (recordSQL "migrations") needleQM = false ∧
    strHasSub (removeSQL "migrations") needleQM = false ∧
    strHasSub (getAppliedSQL "migrations") needleQM = false ∧
    strHasSub (lastBatchSQL "migrations") needleQM = false ∧
    strHasSub (ensureTableSQL "migrations") needleQM = false := by
  refine ⟨?_, by decide, by decide, by decide, by decide, by decide, by decide,
    by decide, by decide, by decide⟩
  intro t
  refine ⟨?_, ?_, ?_, ?_, ?_⟩
  · exact strHasSub_append_right _ t _ _ (by decide)
  · exact strHasSub_append_right _ t _ _ (by decide)
  · exact strHasSub_append_right _ t _ _ (by decide)
  · exact strHasSub_append_right _ t _ _ (by decide)
  · exact strHasSub_append_right _ t _ _ (by decide)

/-! ## Grammar compilers (postgres.go / mysql grammar / sqlite.go):
CompileColumnType for the three dialects, with the section 4.3 mapping
table rendered separately (spec43*) to check the code against the spec. -/

/-- Logical column types; `other` covers any Go ColumnType value outside
the twelve declared constants. -/
inductive ColumnType where
  | string
  | text
  | integer
  | bigInteger
  | boolean
  | timestamp
  | date
  | decimal
  | float
  | uuid
  | json
  | binary
  | other (code : Nat)
  deriving DecidableEq, Repr

/-- ColumnType.String() from the source ("unknown" for the default arm). -/
def ColumnType.typeName : ColumnType → String
  | .string => "string"
  | .text => "text"
  | .integer => "integer"
  | .bigInteger => "bigInteger"
  | .boolean => "boolean"
  | .timestamp => "timestamp"
  | .date => "date"
  | .decimal => "decimal"
  | .float => "float"
  | .uuid => "uuid"
  | .json => "json"
  | .binary => "binary"
  | .other _ => "unknown"

/-- ColumnDefinition fields consulted by CompileColumnType (the default
value, a Go interface, is not consulted there and is omitted). -/
structure ColumnDefinition where
  name : String
  type : ColumnType
  length : Int
  precision : Int
  scale : Int
  isNullable : Bool
  isPrimary : Bool
  isUnique : Bool
  isUnsigned : Bool
  isAutoIncrement : Bool
  deriving DecidableEq, Repr

/-- The rendered text of fmt.Errorf("column %q: type %q: %w", ...) with the
ErrUnsupportedType sentinel message at the end. -/
def unsupportedMsg (col : ColumnDefinition) : String :=
  "column \"" ++ col.name ++ "\": type \"" ++ col.type.typeName ++
    "\": unsupported column type"

/-- PostgresGrammar.CompileColumnType. -/
def pgCompileColumnType (col : ColumnDefinition) : Except String String :=
  match col.type with
  | .string =>
    Except.ok ("VARCHAR(" ++ toString (if col.length ≤ 0 then (255 : Int) else col.length) ++ ")")
  | .text => Except.ok "TEXT"
  | .integer => if col.isAutoIncrement then Except.ok "SERIAL" else Except.ok "INTEGER"
  | .bigInteger => if col.isAutoIncrement then Except.ok "BIGSERIAL" else Except.ok "BIGINT"
  | .boolean => Except.ok "BOOLEAN"
  | .timestamp => Except.ok "TIMESTAMPTZ"
  | .date => Except.ok "DATE"
  | .decimal =>
    Except.ok ("DECIMAL(" ++ toString (if col.precision ≤ 0 then (10 : Int) else col.precision) ++
      ", " ++ toString (if col.scale < 0 then (0 : Int) else col.scale) ++ ")")
  | .float => Except.ok "DOUBLE PRECISION"
  | .uuid => Except.ok "UUID"
  | .json => Except.ok "JSONB"
  | .binary => Except.ok "BYTEA"
  | .other _ => Except.error (unsupportedMsg col)

/-- MySQLGrammar.CompileColumnType. -/
def mysqlCompileColumnType (col : ColumnDefinition) : Except String String :=
  match col.type with
  | .string =>
    Except.ok ("VARCHAR(" ++ toString (if col.length ≤ 0 then (255 : Int) else col.length) ++ ")")
  | .text => Except.ok "TEXT"
  | .integer =>
    Except.ok ((if col.isUnsigned then "INT UNSIGNED" else "INT") ++
      (if col.isAutoIncrement then " AUTO_INCREMENT" else ""))
  | .bigInteger =>
    Except.ok ((if col.isUnsigned then "BIGINT UNSIGNED" else "BIGINT") ++
      (if col.isAutoIncrement then " AUTO_INCREMENT" else ""))
  | .boolean => Except.ok "TINYINT(1)"
  | .timestamp => Except.ok "TIMESTAMP"
  | .date => Except.ok "DATE"
  | .decimal =>
    Except.ok ("DECIMAL(" ++ toString (if col.precision ≤ 0 then (10 : Int) else col.precision) ++
      ", " ++ toString (if col.scale < 0 then (0 : Int) else col.scale) ++ ")")
  | .float => Except.ok "DOUBLE"
  | .uuid => Except.ok "CHAR(36)"
  | .json => Except.ok "JSON"
  | .binary => Except.ok "BLOB"
  | .other _ => Except.error (unsupportedMsg col)

/-- SQLiteGrammar.CompileColumnType. -/
def sqliteCompileColumnType (col : ColumnDefinition) : Except String String :=
  match col.type with
  | .string => Except.ok "TEXT"
  | .text => Except.ok "TEXT"
  | .integer =>
    if col.isAutoIncrement && col.isPrimary then
      Except.ok "INTEGER PRIMARY KEY AUTOINCREMENT"
    else Except.ok "INTEGER"
  | .bigInteger =>
    if col.isAutoIncrement && col.isPrimary then
      Except.ok "INTEGER PRIMARY KEY AUTOINCREMENT"
    else Except.ok "INTEGER"
  | .boolean => Except.ok "INTEGER"
  | .timestamp => Except.ok "TEXT"
  | .date => Except.ok "TEXT"
  | .decimal => Except.ok "REAL"
  | .float => Except.ok "REAL"
  | .uuid => Except.ok "TEXT"
  | .json => Except.ok "TEXT"
  | .binary => Except.ok "BLOB"
  | .other _ => Except.error (unsupportedMsg col)

/-- Modelled from the spec: the PostgreSQL column of the section 4.3
mapping table (none = the dialect cannot represent the logical type). -/
def spec43Postgres (col : ColumnDefinition) : Option String :=
  match col.type with
  | .string =>
    some ("VARCHAR(" ++ toString (if col.length ≤ 0 then (255 : Int) else col.length) ++ ")")
  | .text => some "TEXT"
  | .integer => some (if col.isAutoIncrement then "SERIAL" else "INTEGER")
  | .bigInteger => some (if col.isAutoIncrement then "BIGSERIAL" else "BIGINT")
  | .boolean => some "BOOLEAN"
  | .timestamp => some "TIMESTAMPTZ"
  | .date => some "DATE"
  | .decimal =>
    some ("DECIMAL(" ++ toString (if col.precision ≤ 0 then (10 : Int) else col.precision) ++
      ", " ++ toString (if col.scale < 0 then (0 : Int) else col.scale) ++ ")")
  | .float => some "DOUBLE PRECISION"
  | .uuid => some "UUID"
  | .json => some "JSONB"
  | .binary => some "BYTEA"
  | .other _ => none

/-- Modelled from the spec: the MySQL column of the section 4.3 table. -/
def spec43MySQL (col : ColumnDefinition) : Option String :=
  match col.type with
  | .string =>
    some ("VARCHAR(" ++ toString (if col.length ≤ 0 then (255 : Int) else col.length) ++ ")")
  | .text => some "TEXT"
  | .integer =>
    some ((if col.isUnsigned then "INT UNSIGNED" else "INT") ++
      (if col.isAutoIncrement then " AUTO_INCREMENT" else ""))
  | .bigInteger =>
    some ((if col.isUnsigned then "BIGINT UNSIGNED" else "BIGINT") ++
      (if col.isAutoIncrement then " AUTO_INCREMENT" else ""))
  | .boolean => some "TINYINT(1)"
  | .timestamp => some "TIMESTAMP"
  | .date => some "DATE"
  | .decimal =>
    some ("DECIMAL(" ++ toString (if col.precision ≤ 0 then (10 : Int) else col.precision) ++
      ", " ++ toString (if col.scale < 0 then (0 : Int) else col.scale) ++ ")")
  | .float => some "DOUBLE"
  | .uuid => some "CHAR(36)"
  | .json => some "JSON"
  | .binary => some "BLOB"
  | .other _ => none

/-- Modelled from the spec: the SQLite column of the section 4.3 table. -/
def spec43SQLite (col : ColumnDefinition) : Option String :=
  match col.type with
  | .string => some "TEXT"
  | .text => some "TEXT"
  | .integer =>
    some (if col.isPrimary && col.isAutoIncrement then
      "INTEGER PRIMARY KEY AUTOINCREMENT" else "INTEGER")
  | .bigInteger =>
    some (if col.isPrimary && col.isAutoIncrement then
      "INTEGER PRIMARY KEY AUTOINCREMENT" else "INTEGER")
  | .boolean => some "INTEGER"
  | .timestamp => some "TEXT"
  | .date => some "TEXT"
  | .decimal => some "REAL"
  | .float => some "REAL"
  | .uuid => some "TEXT"
  | .json => some "TEXT"
  | .binary => some "BLOB"
  | .other _ => none

theorem startsWithChars_self_append :
    ∀ (nd post : List Char), startsWithChars nd (nd ++ post) = true := by
  intro nd post
  induction nd with
  | nil => rfl
  | cons c cs ih => simp [startsWithChars, ih]

theorem hasSubChars_self_append (nd post : List Char) :
    hasSubChars nd (nd ++ post) = true := by
  cases nd with
  | nil => cases post <;> simp [hasSubChars, startsWithChars]
  | cons c cs =>
    simp only [List.cons_append, hasSubChars, Bool.or_eq_true]
    exact Or.inl (startsWithChars_self_append (c :: cs) post)

/-- Needle for the ErrUnsupportedType sentinel text. -/
def needleUnsupported : String := "unsupported column type"

theorem unsupportedMsg_hasSub_name (col : ColumnDefinition) :
    strHasSub (unsupportedMsg col) col.name = true := by
  unfold strHasSub unsupportedMsg
  simp only [String.data_append, List.append_assoc]
  exact hasSubChars_append_right _ _ _ (hasSubChars_self_append _ _)

theorem unsupportedMsg_hasSub_sentinel (col : ColumnDefinition) :
    strHasSub (unsupportedMsg col) needleUnsupported = true := by
  unfold strHasSub unsupportedMsg
  simp only [String.data_append, List.append_assoc]
  apply hasSubChars_append_right
  apply hasSubChars_append_right
  apply hasSubChars_append_right
  apply hasSubChars_append_right
  decide

/-- C7: each dialect's CompileColumnType agrees exactly with the section
4.3 mapping table on the twelve supported logical types, and on any other
type fails with the UnsupportedType error whose message contains the
column name. -/
theorem column_type_spec (col : ColumnDefinition) :
    pgCompileColumnType col = (match spec43Postgres col with
      | some s => Except.ok s
      | none => Except.error (unsupportedMsg col)) ∧
    mysqlCompileColumnType col = (match spec43MySQL col with
      | some s => Except.ok s
      | none => Except.error (unsupportedMsg col)) ∧
    sqliteCompileColumnType col = (match spec43SQLite col with
      | some s => Except.ok s
      | none => Except.error (unsupportedMsg col)) ∧
    (spec43Postgres col = none ↔ ∃ k, col.type = ColumnType.other k) ∧
    (spec43MySQL col = none ↔ ∃ k, col.type = ColumnType.other k) ∧
    (spec43SQLite col = none ↔ ∃ k, col.type = ColumnType.other k) ∧
    strHasSub (unsupportedMsg col) col.name = true ∧
    strHasSub (unsupportedMsg col) needleUnsupported = true := by
  obtain ⟨nm, ty, len, prec, sc, nl, pr, uq, us, ai⟩ := col
  refine ⟨?_, ?_, ?_, ?_, ?_, ?_,
    unsupportedMsg_hasSub_name _, unsupportedMsg_hasSub_sentinel _⟩
  · cases ty <;>
      simp [pgCompileColumnType, spec43Postgres] <;>
      cases ai <;> simp
  · cases ty <;> rfl
  · cases ty <;>
      simp [sqliteCompileColumnType, spec43SQLite] <;>
      cases ai <;> cases pr <;> simp
  · cases ty <;> simp [spec43Postgres]
  · cases ty <;> simp [spec43MySQL]
  · cases ty <;> simp [spec43SQLite]

/-! ## Seeder dependency resolver (pkg/seeder/runner.go)

The seeder registry is an association list name -> declared dependencies
(a seeder without the DependsOn capability has []).  The Go code is a pair
of mutually recursive closures: `visit` marks a node in-progress, visits
its (lexicographically sorted) dependencies, then marks it visited and
appends it to the order; `inProgress` always equals the set of the current
DFS path, which we pass as the explicit ancestor list `anc`.  The visit of
one node and the loop over a dependency list are merged into one worklist
function `visitL` (visit n = visitL [n]); the fuel argument bounds the DFS
depth, which never exceeds the number of registered seeders, so the
canonical fuel `seedFuel` can never be exhausted (proved below). -/

/-- A seeder graph: registered names with their declared dependencies. -/
abbrev SGraph : Type := List (String × List String)

/-- Seeder-side errors. -/
inductive SErr where
  | circular (path : String)
  | notFound (name : String)
  | seederFailed (name : String)
  | fuelExhausted
  deriving DecidableEq, Repr

/-- Lookup of a registered seeder's dependency list by name. -/
def lookupDeps (all : SGraph) (n : String) : Option (List String) :=
  match all with
  | [] => none
  | (k, ds) :: rest => if k = n then some ds else lookupDeps rest n

/-- Registered names. -/
def seederKeys (all : SGraph) : List String :=
  all.map (fun p => p.1)

/-- Ordered insert for sort.Strings. -/
def insertStr (x : String) : List String → List String
  | [] => [x]
  | y :: ys => if strLe x y then x :: y :: ys else y :: insertStr x ys

/-- sort.Strings: ascending lexicographic sort. -/
def sortStrings (l : List String) : List String := l.foldr insertStr []

/-- buildCyclePath: the DFS path from the first occurrence of the target,
closed with the target, joined by arrows. -/
def buildCyclePath (path : List String) (target : String) : String :=
  match path.dropWhile (fun n => n ≠ target) with
  | [] => target ++ " -> " ++ target
  | l => String.intercalate " -> " (l ++ [target])

/-- DFS worklist: process each todo node against the ancestor path `anc`,
threading the visited set `vis` and the output order `ord`. -/
def visitL (all : SGraph) : Nat → List String → List String → List String →
    List String → Except SErr (List String × List String)
  | _, _, vis, ord, [] => Except.ok (vis, ord)
  | 0, _, _, _, _ :: _ => Except.error SErr.fuelExhausted
  | fuel + 1, anc, vis, ord, n :: rest =>
    if vis.contains n then visitL all (fuel + 1) anc vis ord rest
    else if anc.contains n then
      Except.error (SErr.circular (buildCyclePath anc n))
    else
      match lookupDeps all n with
      | none => Except.error (SErr.notFound n)
      | some deps =>
        match visitL all fuel (anc ++ [n]) vis ord (sortStrings deps) with
        | Except.error e => Except.error e
        | Except.ok (v, o) => visitL all (fuel + 1) anc (v ++ [n]) (o ++ [n]) rest

/-- Fuel that can never run out: one more than the registry size. -/
def seedFuel (all : SGraph) : Nat := all.length + 1

/-- resolveOrder: execution order for one seeder and its dependencies. -/
def resolveOrder (all : SGraph) (name : String) : Except SErr (List String) :=
  match visitL all (seedFuel all) [] [] [] [name] with
  | Except.error e => Except.error e
  | Except.ok (_, o) => Except.ok o

/-- resolveAllOrder: execution order over all seeders, roots taken in
lexicographic order. -/
def resolveAllOrder (all : SGraph) : Except SErr (List String) :=
  match visitL all (seedFuel all) [] [] [] (sortStrings (seederKeys all)) with
  | Except.error e => Except.error e
  | Except.ok (_, o) => Except.ok o

/-- Run the resolved order against the seeder bodies' success oracle; the
result lists the seeders that were invoked, in order. -/
def runSeeders (env : String → Bool) : List String → List String × Option SErr
  | [] => ([], none)
  | n :: rest =>
    if env n then
      ((runSeeders env rest).1.cons n, (runSeeders env rest).2)
    else ([n], some (SErr.seederFailed n))

/-- Runner.RunAll. -/
def RunAll (env : String → Bool) (all : SGraph) : List String × Option SErr :=
  if all.isEmpty then ([], none)
  else
    match resolveAllOrder all with
    | Except.error e => ([], some e)
    | Except.ok order => runSeeders env order

/-- Runner.Run: Registry.Get first, then resolve, then execute. -/
def SeederRun (env : String → Bool) (all : SGraph) (name : String) :
    List String × Option SErr :=
  match lookupDeps all name with
  | none => ([], some (SErr.notFound name))
  | some _ =>
    match resolveOrder all name with
    | Except.error e => ([], some e)
    | Except.ok order => runSeeders env order

/-- An edge of the dependency graph: b is a declared dependency of a. -/
def edgeB (all : SGraph) (a b : String) : Bool :=
  match lookupDeps all a with
  | some ds => ds.contains b
  | none => false

/-- chainB: consecutive elements are dependency edges. -/
def chainB (all : SGraph) : List String → Bool
  | [] => true
  | [_] => true
  | a :: b :: rest => edgeB all a b && chainB all (b :: rest)

/-- isCycleB: a nonempty edge chain whose last element has an edge back to
its first element (a one-element list is a self-dependency). -/
def isCycleB (all : SGraph) : List String → Bool
  | [] => false
  | x :: xs => chainB all (x :: xs) && edgeB all (xs.getLastD x) x

/-- Reach all a b: b is in the transitive-reflexive dependency closure
of a. -/
inductive Reach (all : SGraph) : String → String → Prop
  | refl (a : String) : Reach all a a
  | tail {a b c : String} : Reach all a b → edgeB all b c = true → Reach all a c

/-- The graph is closed: every declared dependency is registered. -/
def closedB (all : SGraph) : Bool :=
  all.all (fun p => p.2.all (fun d => (seederKeys all).contains d))


theorem chainB_cons₂ (all : SGraph) (x y : String) (r : List String) :
    chainB all (x :: y :: r) = (edgeB all x y && chainB all (y :: r)) := rfl

theorem lookupDeps_eq_none (all : SGraph) (n : String) :
    lookupDeps all n = none ↔ n ∉ seederKeys all := by
  induction all with
  | nil => simp [lookupDeps, seederKeys]
  | cons p rest ih =>
    unfold lookupDeps
    by_cases hp : p.1 = n
    · simp [hp, seederKeys]
    · simp only [if_neg hp]
      rw [ih]
      simp [seederKeys, hp]
      intro h
      exact fun he => hp he.symm

theorem lookupDeps_mem (all : SGraph) (n : String) (ds : List String)
    (h : lookupDeps all n = some ds) : (n, ds) ∈ all := by
  induction all with
  | nil => simp [lookupDeps] at h
  | cons p rest ih =>
    unfold lookupDeps at h
    by_cases hp : p.1 = n
    · rw [if_pos hp] at h
      injection h with h
      have hpe : p = (n, ds) := by rw [← hp, ← h]
      rw [hpe]
      exact List.mem_cons_self _ _
    · rw [if_neg hp] at h
      exact List.mem_cons_of_mem _ (ih h)

theorem insertStr_perm (x : String) (l : List String) :
    (insertStr x l).Perm (x :: l) := by
  induction l with
  | nil => simp [insertStr]
  | cons y ys ih =>
    unfold insertStr
    by_cases h : strLe x y = true
    · rw [if_pos h]
    · rw [if_neg h]
      exact (List.Perm.cons y ih).trans (List.Perm.swap x y ys)

theorem sortStrings_perm (l : List String) : (sortStrings l).Perm l := by
  induction l with
  | nil => simp [sortStrings]
  | cons x xs ih =>
    exact (insertStr_perm x (sortStrings xs)).trans (List.Perm.cons x ih)

theorem mem_sortStrings (l : List String) (a : String) :
    a ∈ sortStrings l ↔ a ∈ l := (sortStrings_perm l).mem_iff

theorem edgeB_of_deps (all : SGraph) (n d : String) (ds : List String)
    (hl : lookupDeps all n = some ds) (hd : d ∈ ds) : edgeB all n d = true := by
  unfold edgeB
  rw [hl]
  exact List.elem_iff.mpr hd

theorem keys_of_edgeB (all : SGraph) (a b : String) (h : edgeB all a b = true) :
    a ∈ seederKeys all := by
  unfold edgeB at h
  cases hl : lookupDeps all a with
  | none => rw [hl] at h; simp at h
  | some ds =>
    by_contra hk
    rw [(lookupDeps_eq_none all a).mpr hk] at hl
    simp at hl

theorem chainB_tail (all : SGraph) (x : String) (r : List String)
    (h : chainB all (x :: r) = true) : chainB all r = true := by
  cases r with
  | nil => rfl
  | cons y ys =>
    rw [chainB_cons₂, Bool.and_eq_true] at h
    exact h.2

theorem chainB_suffix (all : SGraph) :
    ∀ (l₁ l₂ : List String), chainB all (l₁ ++ l₂) = true → chainB all l₂ = true := by
  intro l₁
  induction l₁ with
  | nil => intro l₂ h; simpa using h
  | cons x l' ih =>
    intro l₂ h
    exact ih l₂ (chainB_tail all x (l' ++ l₂) h)

theorem chainB_snoc (all : SGraph) :
    ∀ (l : List String) (a b : String),
      chainB all (l ++ [a]) = true → edgeB all a b = true →
      chainB all (l ++ [a] ++ [b]) = true := by
  intro l
  induction l with
  | nil =>
    intro a b _ he
    simp only [List.nil_append, List.cons_append]
    rw [chainB_cons₂, he]
    rfl
  | cons x l' ih =>
    intro a b hc he
    cases l' with
    | nil =>
      simp only [List.cons_append, List.nil_append] at hc ⊢
      rw [chainB_cons₂, Bool.and_eq_true] at hc
      rw [chainB_cons₂, hc.1, chainB_cons₂, he]
      rfl
    | cons z l'' =>
      simp only [List.cons_append] at hc ⊢
      rw [chainB_cons₂, Bool.and_eq_true] at hc
      rw [chainB_cons₂, hc.1]
      have := ih a b (by simpa using hc.2) he
      simpa using this

theorem chainB_snoc_inv (all : SGraph) :
    ∀ (l : List String) (b : String), l ≠ [] →
      chainB all (l ++ [b]) = true →
      chainB all l = true ∧ edgeB all (l.getLastD "") b = true := by
  intro l
  induction l with
  | nil => intro b h; exact absurd rfl h
  | cons x l' ih =>
    intro b _ hc
    cases l' with
    | nil =>
      simp only [List.cons_append, List.nil_append] at hc
      rw [chainB_cons₂, Bool.and_eq_true] at hc
      exact ⟨rfl, by simpa using hc.1⟩
    | cons z l'' =>
      simp only [List.cons_append] at hc
      rw [chainB_cons₂, Bool.and_eq_true] at hc
      have hrec := ih b (by simp) (by simpa using hc.2)
      refine ⟨?_, ?_⟩
      · rw [chainB_cons₂, hc.1]
        simpa using hrec.1
      · rw [List.getLastD_cons]
        simpa [List.getLastD_cons] using hrec.2

theorem getLastD_append_cons (x : String) :
    ∀ (pre suf : List String) (d : String),
      (pre ++ x :: suf).getLastD d = (x :: suf).getLastD d := by
  intro pre
  induction pre with
  | nil => intro suf d; rfl
  | cons p ps ih =>
    intro suf d
    simp only [List.cons_append, List.getLastD_cons]
    rw [ih suf p]
    simp only [List.getLastD_cons]

theorem Reach.trans_r (all : SGraph) {a b c : String}
    (h1 : Reach all a b) (h2 : Reach all b c) : Reach all a c := by
  induction h2 with
  | refl => exact h1
  | tail _ he ih => exact Reach.tail ih he

theorem chain_reach (all : SGraph) :
    ∀ (l : List String) (a : String), chainB all (a :: l) = true →
      Reach all a (l.getLastD a) := by
  intro l
  induction l with
  | nil => intro a _; exact Reach.refl a
  | cons b l' ih =>
    intro a hc
    rw [chainB_cons₂, Bool.and_eq_true] at hc
    rw [List.getLastD_cons]
    exact Reach.trans_r all (Reach.tail (Reach.refl a) hc.1) (ih b hc.2)

theorem chain_reach_all (all : SGraph) :
    ∀ (l : List String) (a : String), chainB all (a :: l) = true →
      ∀ z ∈ a :: l, Reach all a z := by
  intro l
  induction l with
  | nil =>
    intro a _ z hz
    rw [List.mem_singleton] at hz
    rw [hz]
    exact Reach.refl a
  | cons b l' ih =>
    intro a hc z hz
    rw [chainB_cons₂, Bool.and_eq_true] at hc
    rcases List.mem_cons.mp hz with hz | hz
    · rw [hz]; exact Reach.refl a
    · exact Reach.trans_r all (Reach.tail (Reach.refl a) hc.1) (ih b hc.2 z hz)

theorem getLastD_mem : ∀ (l : List String) (a : String), l.getLastD a ∈ a :: l := by
  intro l
  induction l with
  | nil => intro a; simp
  | cons b l' ih =>
    intro a
    rw [List.getLastD_cons]
    exact List.mem_cons_of_mem _ (ih b)

theorem getLastD_irrel : ∀ (l : List String) (d d' : String), l ≠ [] →
    l.getLastD d = l.getLastD d' := by
  intro l d d' hne
  cases l with
  | nil => exact absurd rfl hne
  | cons b l' => rw [List.getLastD_cons, List.getLastD_cons]

theorem chain_has_edge (all : SGraph) (z0 : String) :
    ∀ (t : List String) (h : String), chainB all (h :: t) = true →
      edgeB all (t.getLastD h) z0 = true →
      ∀ x ∈ h :: t, ∃ y, edgeB all x y = true := by
  intro t
  induction t with
  | nil =>
    intro h _ hcl x hx
    rw [List.mem_singleton] at hx
    rw [hx]
    exact ⟨z0, by simpa using hcl⟩
  | cons b t' ih =>
    intro h hc hcl x hx
    rw [chainB_cons₂, Bool.and_eq_true] at hc
    rcases List.mem_cons.mp hx with hx | hx
    · exact ⟨b, hx ▸ hc.1⟩
    · rw [List.getLastD_cons] at hcl
      exact ih b hc.2 hcl x hx

theorem cycle_mem_keys (all : SGraph) (c : List String)
    (hc : isCycleB all c = true) : ∀ x ∈ c, x ∈ seederKeys all := by
  cases c with
  | nil => simp [isCycleB] at hc
  | cons h t =>
    unfold isCycleB at hc
    rw [Bool.and_eq_true] at hc
    intro x hx
    rcases chain_has_edge all h t h hc.1 hc.2 x hx with ⟨y, hy⟩
    exact keys_of_edgeB all x y hy

theorem cycle_rotation (all : SGraph) (c : List String)
    (hc : isCycleB all c = true) :
    ∀ x ∈ c, ∀ y ∈ c, Reach all x y := by
  cases c with
  | nil => simp [isCycleB] at hc
  | cons h t =>
    unfold isCycleB at hc
    rw [Bool.and_eq_true] at hc
    intro x hx y hy
    rcases List.append_of_mem hx with ⟨pre, suf, hsplit⟩
    have hchx : chainB all (x :: suf) = true := by
      apply chainB_suffix all pre
      rw [← hsplit]
      exact hc.1
    have hlast : suf.getLastD x = t.getLastD h := by
      have h1 : (h :: t).getLastD x = (x :: suf).getLastD x := by
        rw [hsplit]
        exact getLastD_append_cons x pre suf x
      rw [List.getLastD_cons, List.getLastD_cons] at h1
      exact h1.symm
    have hreachlast : Reach all x (t.getLastD h) := by
      have hr := chain_reach all suf x hchx
      rw [hlast] at hr
      exact hr
    have hreachh : Reach all x h := Reach.tail hreachlast hc.2
    exact Reach.trans_r all hreachh (chain_reach_all all t h hc.1 y hy)

theorem chain_descent (all : SGraph) (c : List String) (m : String → Nat)
    (hdesc : ∀ a b, a ∈ c → edgeB all a b = true → m b < m a) :
    ∀ (l : List String) (a : String), (∀ z ∈ a :: l, z ∈ c) →
      chainB all (a :: l) = true → m (l.getLastD a) ≤ m a := by
  intro l
  induction l with
  | nil => intro a _ _; exact le_refl _
  | cons b l' ih =>
    intro a hsub hc
    rw [chainB_cons₂, Bool.and_eq_true] at hc
    rw [List.getLastD_cons]
    have hb : m b < m a := hdesc a b (hsub a (List.mem_cons_self _ _)) hc.1
    have : m (l'.getLastD b) ≤ m b :=
      ih b (fun z hz => hsub z (List.mem_cons_of_mem _ hz)) hc.2
    exact le_of_lt (lt_of_le_of_lt this hb)

theorem cycle_no_descent (all : SGraph) (c : List String)
    (hc : isCycleB all c = true) (m : String → Nat)
    (hdesc : ∀ a b, a ∈ c → edgeB all a b = true → m b < m a) : False := by
  cases c with
  | nil => simp [isCycleB] at hc
  | cons h t =>
    unfold isCycleB at hc
    rw [Bool.and_eq_true] at hc
    have hle : m (t.getLastD h) ≤ m h :=
      chain_descent all (h :: t) m hdesc t h (fun z hz => hz) hc.1
    have hlt : m h < m (t.getLastD h) :=
      hdesc (t.getLastD h) h (getLastD_mem t h) hc.2
    exact absurd (lt_of_le_of_lt hle hlt) (lt_irrefl _)

theorem indexOf_append_left {a : String} :
    ∀ (l₁ l₂ : List String), a ∈ l₁ → (l₁ ++ l₂).indexOf a = l₁.indexOf a := by
  intro l₁
  induction l₁ with
  | nil => intro l₂ h; simp at h
  | cons b bs ih =>
    intro l₂ h
    rw [List.cons_append, List.indexOf_cons, List.indexOf_cons]
    cases hb : b == a with
    | true => rfl
    | false =>
      have hne : b ≠ a := by simpa using hb
      have : a ∈ bs := by
        rcases List.mem_cons.mp h with h | h
        · exact absurd h.symm hne
        · exact h
      simp only [cond_false]
      rw [ih l₂ this]

theorem indexOf_append_self {a : String} :
    ∀ (l : List String), a ∉ l → (l ++ [a]).indexOf a = l.length := by
  intro l
  induction l with
  | nil => simp [List.indexOf_cons]
  | cons b bs ih =>
    intro h
    rw [List.cons_append, List.indexOf_cons]
    have hb : (b == a) = false := by
      have : b ≠ a := fun he => h (by rw [he]; exact List.mem_cons_self _ _)
      simpa using this
    rw [hb]
    simp only [cond_false, List.length_cons]
    rw [ih (fun hm => h (List.mem_cons_of_mem _ hm))]

theorem indexOf_lt_length_of_mem {a : String} :
    ∀ (l : List String), a ∈ l → l.indexOf a < l.length := by
  intro l
  induction l with
  | nil => intro h; simp at h
  | cons b bs ih =>
    intro h
    rw [List.indexOf_cons]
    cases hb : b == a with
    | true => simp
    | false =>
      have hne : b ≠ a := by simpa using hb
      have : a ∈ bs := by
        rcases List.mem_cons.mp h with h | h
        · exact absurd h.symm hne
        · exact h
      simp only [cond_false, List.length_cons]
      exact Nat.succ_lt_succ (ih this)

/-- The visited set is closed under declared dependencies. -/
def depClosedB (all : SGraph) (vis : List String) : Prop :=
  ∀ x ∈ vis, ∀ ds, lookupDeps all x = some ds → ∀ d ∈ ds, d ∈ vis

/-- The order lists every dependency of each member strictly before it. -/
def topoB (all : SGraph) (ord : List String) : Prop :=
  ∀ n ∈ ord, ∀ ds, lookupDeps all n = some ds → ∀ d ∈ ds,
    d ∈ ord ∧ ord.indexOf d < ord.indexOf n

theorem visitL_ok (all : SGraph) :
    ∀ (fuel : Nat) (anc vis ord todo v o : List String),
      visitL all fuel anc vis ord todo = Except.ok (v, o) →
      (∃ δ, v = vis ++ δ ∧ o = ord ++ δ ∧
        (∀ x ∈ δ, x ∉ anc) ∧ (∀ x ∈ δ, x ∉ vis)) ∧
      (∀ t ∈ todo, t ∈ v) ∧
      (depClosedB all vis → depClosedB all v) ∧
      ((∀ x, x ∈ vis ↔ x ∈ ord) → ord.Nodup → topoB all ord →
        o.Nodup ∧ topoB all o) ∧
      (∀ (P : String → Prop), (∀ a b, P a → edgeB all a b = true → P b) →
        (∀ t ∈ todo, P t) → ∀ x ∈ v, x ∈ vis ∨ P x) := by
  intro fuel
  induction fuel with
  | zero =>
    intro anc vis ord todo v o h
    cases todo with
    | nil =>
      have hvo : vis = v ∧ ord = o := by
        simp [visitL] at h
        exact h
      obtain ⟨h1, h2⟩ := hvo
      subst h1
      subst h2
      refine ⟨⟨[], by simp, by simp, by simp, by simp⟩, by simp, fun hdc => hdc,
        fun hse hnd ht => ⟨hnd, ht⟩, fun P _ _ x hx => Or.inl hx⟩
    | cons n rest => simp [visitL] at h
  | succ f ihf =>
    intro anc vis ord todo
    induction todo generalizing vis ord with
    | nil =>
      intro v o h
      have hvo : vis = v ∧ ord = o := by
        simp [visitL] at h
        exact h
      obtain ⟨h1, h2⟩ := hvo
      subst h1
      subst h2
      refine ⟨⟨[], by simp, by simp, by simp, by simp⟩, by simp, fun hdc => hdc,
        fun hse hnd ht => ⟨hnd, ht⟩, fun P _ _ x hx => Or.inl hx⟩
    | cons n rest ihr =>
      intro v o h
      rw [visitL] at h
      by_cases hv : vis.contains n = true
      · rw [if_pos hv] at h
        have hnvis : n ∈ vis := List.elem_iff.mp hv
        have IH := ihr vis ord v o h
        obtain ⟨⟨δ, hvd, hod, hda, hdv⟩, IH2, IH3, IH4, IH5⟩ := IH
        refine ⟨⟨δ, hvd, hod, hda, hdv⟩, ?_, IH3, IH4, ?_⟩
        · intro t ht
          rcases List.mem_cons.mp ht with ht | ht
          · rw [ht, hvd]
            exact List.mem_append_left _ hnvis
          · exact IH2 t ht
        · intro P hPcl hPtodo
          exact IH5 P hPcl (fun t ht => hPtodo t (List.mem_cons_of_mem _ ht))
      · rw [if_neg hv] at h
        have hnvis : n ∉ vis := fun hm => hv (List.elem_iff.mpr hm)
        by_cases ha : anc.contains n = true
        · rw [if_pos ha] at h
          simp at h
        · rw [if_neg ha] at h
          have hnanc : n ∉ anc := fun hm => ha (List.elem_iff.mpr hm)
          cases hl : lookupDeps all n with
          | none => rw [hl] at h; simp at h
          | some deps =>
            rw [hl] at h
            have hm : (match visitL all f (anc ++ [n]) vis ord (sortStrings deps) with
                | Except.error e => Except.error e
                | Except.ok (v, o) =>
                  visitL all (f + 1) anc (v ++ [n]) (o ++ [n]) rest) =
                Except.ok (v, o) := h
            cases hd : visitL all f (anc ++ [n]) vis ord (sortStrings deps) with
            | error e => rw [hd] at hm; simp at hm
            | ok vo =>
              obtain ⟨v', o'⟩ := vo
              rw [hd] at hm
              have hrest : visitL all (f + 1) anc (v' ++ [n]) (o' ++ [n]) rest =
                  Except.ok (v, o) := hm
              have IHdeps := ihf (anc ++ [n]) vis ord (sortStrings deps) v' o' hd
              have IHrest := ihr (v' ++ [n]) (o' ++ [n]) v o hrest
              obtain ⟨⟨δ₁, hv1, ho1, hna1, hnv1⟩, Id2, Id3, Id4, Id5⟩ := IHdeps
              obtain ⟨⟨δ₂, hv2, ho2, hna2, hnv2⟩, Ir2, Ir3, Ir4, Ir5⟩ := IHrest
              have hveq : v = vis ++ (δ₁ ++ n :: δ₂) := by
                rw [hv2, hv1]
                simp
              have hoeq : o = ord ++ (δ₁ ++ n :: δ₂) := by
                rw [ho2, ho1]
                simp
              refine ⟨⟨δ₁ ++ n :: δ₂, hveq, hoeq, ?_, ?_⟩, ?_, ?_, ?_, ?_⟩
              · intro x hx
                rcases List.mem_append.mp hx with hx | hx
                · intro hxa
                  exact hna1 x hx (List.mem_append_left _ hxa)
                · rcases List.mem_cons.mp hx with hx | hx
                  · rw [hx]; exact hnanc
                  · exact hna2 x hx
              · intro x hx
                rcases List.mem_append.mp hx with hx | hx
                · exact hnv1 x hx
                · rcases List.mem_cons.mp hx with hx | hx
                  · rw [hx]; exact hnvis
                  · intro hxv
                    exact hnv2 x hx (List.mem_append_left _ (by rw [hv1]; exact List.mem_append_left _ hxv))
              · intro t ht
                rcases List.mem_cons.mp ht with ht | ht
                · rw [ht, hv2]
                  exact List.mem_append_left _ (List.mem_append_right _ (by simp))
                · exact Ir2 t ht
              · intro hdc
                have hdc' : depClosedB all v' := Id3 hdc
                have hdcn : depClosedB all (v' ++ [n]) := by
                  intro x hx ds hds d hdd
                  rcases List.mem_append.mp hx with hx | hx
                  · exact List.mem_append_left _ (hdc' x hx ds hds d hdd)
                  · have hxn : x = n := by simpa using hx
                    rw [hxn, hl] at hds
                    injection hds with hds
                    subst hds
                    exact List.mem_append_left _
                      (Id2 d ((mem_sortStrings deps d).mpr hdd))
                exact Ir3 hdcn
              · intro hse hnd htopo
                have h5d := Id4 hse hnd htopo
                have hse' : ∀ x, x ∈ v' ↔ x ∈ o' := by
                  intro x
                  rw [hv1, ho1, List.mem_append, List.mem_append, hse x]
                have hno' : n ∉ o' := by
                  intro hno
                  have hnv' : n ∈ v' := (hse' n).mpr hno
                  rw [hv1] at hnv'
                  rcases List.mem_append.mp hnv' with hh | hh
                  · exact hnvis hh
                  · exact hna1 n hh (List.mem_append_right _ (by simp))
                have hndn : (o' ++ [n]).Nodup := by
                  apply List.Nodup.append h5d.1 (by simp)
                  intro a ha hb
                  have : a = n := by simpa using hb
                  rw [this] at ha
                  exact hno' ha
                have htopon : topoB all (o' ++ [n]) := by
                  intro mm hmm ds hds d hdd
                  rcases List.mem_append.mp hmm with hmm | hmm
                  · obtain ⟨hdo, hidx⟩ := h5d.2 mm hmm ds hds d hdd
                    refine ⟨List.mem_append_left _ hdo, ?_⟩
                    rw [indexOf_append_left _ _ hdo, indexOf_append_left _ _ hmm]
                    exact hidx
                  · have hmn : mm = n := by simpa using hmm
                    rw [hmn, hl] at hds
                    injection hds with hds
                    subst hds
                    have hdv' : d ∈ v' := Id2 d ((mem_sortStrings deps d).mpr hdd)
                    have hdo' : d ∈ o' := (hse' d).mp hdv'
                    refine ⟨List.mem_append_left _ hdo', ?_⟩
                    rw [hmn, indexOf_append_left _ _ hdo', indexOf_append_self o' hno']
                    exact indexOf_lt_length_of_mem o' hdo'
                have hsen : ∀ x, x ∈ v' ++ [n] ↔ x ∈ o' ++ [n] := by
                  intro x
                  rw [List.mem_append, List.mem_append, hse' x]
                exact Ir4 hsen hndn htopon
              · intro P hPcl hPtodo
                have hPn : P n := hPtodo n (List.mem_cons_self _ _)
                have hPdeps : ∀ t ∈ sortStrings deps, P t := by
                  intro t ht
                  exact hPcl n t hPn
                    (edgeB_of_deps all n t deps hl ((mem_sortStrings deps t).mp ht))
                have h6d := Id5 P hPcl hPdeps
                have h6r := Ir5 P hPcl
                  (fun t ht => hPtodo t (List.mem_cons_of_mem _ ht))
                intro x hx
                rcases h6r x hx with hx' | hx'
                · rcases List.mem_append.mp hx' with hx'' | hx''
                  · exact h6d x hx''
                  · have : x = n := by simpa using hx''
                    rw [this]
                    exact Or.inr hPn
                · exact Or.inr hx'

theorem edgeB_elim (all : SGraph) (a b : String) (h : edgeB all a b = true) :
    ∃ ds, lookupDeps all a = some ds ∧ b ∈ ds := by
  unfold edgeB at h
  cases hl : lookupDeps all a with
  | none => rw [hl] at h; simp at h
  | some ds =>
    rw [hl] at h
    exact ⟨ds, rfl, List.elem_iff.mp h⟩

theorem closed_deps (all : SGraph) (hclosed : closedB all = true)
    (n : String) (ds : List String) (hl : lookupDeps all n = some ds) :
    ∀ d ∈ ds, d ∈ seederKeys all := by
  intro d hd
  have hmem := lookupDeps_mem all n ds hl
  rw [closedB, List.all_eq_true] at hclosed
  have := hclosed (n, ds) hmem
  rw [List.all_eq_true] at this
  exact List.elem_iff.mp (this d hd)

theorem runSeeders_all_ok (env : String → Bool) (henv : ∀ s, env s = true) :
    ∀ order, runSeeders env order = (order, none) := by
  intro order
  induction order with
  | nil => rfl
  | cons n rest ih =>
    unfold runSeeders
    rw [henv n]
    simp [ih]

theorem length_filter_le_of_imp {α : Type} :
    ∀ (l : List α) (p q : α → Bool),
      (∀ x ∈ l, q x = true → p x = true) →
      (l.filter q).length ≤ (l.filter p).length := by
  intro l
  induction l with
  | nil => intro p q _; simp
  | cons b bs ih =>
    intro p q himp
    have hrest := ih p q (fun x hx => himp x (List.mem_cons_of_mem _ hx))
    cases hqb : q b with
    | true =>
      rw [List.filter_cons_of_pos hqb,
        List.filter_cons_of_pos (himp b (List.mem_cons_self _ _) hqb)]
      simpa using hrest
    | false =>
      cases hpb : p b with
      | true =>
        rw [List.filter_cons_of_neg (by simp [hqb]), List.filter_cons_of_pos hpb]
        exact le_trans hrest (by simp)
      | false =>
        rw [List.filter_cons_of_neg (by simp [hqb]),
          List.filter_cons_of_neg (by simp [hpb])]
        exact hrest

theorem length_filter_lt_of_witness {α : Type} :
    ∀ (l : List α) (p q : α → Bool),
      (∀ x ∈ l, q x = true → p x = true) →
      ∀ a, a ∈ l → p a = true → q a = false →
      (l.filter q).length < (l.filter p).length := by
  intro l
  induction l with
  | nil => intro p q _ a ha; simp at ha
  | cons b bs ih =>
    intro p q himp a ha hpa hqa
    rcases List.mem_cons.mp ha with hab | hab
    · have hqb : q b = false := by rw [← hab]; exact hqa
      have hpb : p b = true := by rw [← hab]; exact hpa
      rw [List.filter_cons_of_neg (by simp [hqb]), List.filter_cons_of_pos hpb]
      have := length_filter_le_of_imp bs p q
        (fun x hx => himp x (List.mem_cons_of_mem _ hx))
      simpa using Nat.lt_succ_of_le this
    · have hrest := ih p q (fun x hx => himp x (List.mem_cons_of_mem _ hx))
        a hab hpa hqa
      cases hqb : q b with
      | true =>
        rw [List.filter_cons_of_pos hqb,
          List.filter_cons_of_pos (himp b (List.mem_cons_self _ _) hqb)]
        simpa using hrest
      | false =>
        cases hpb : p b with
        | true =>
          rw [List.filter_cons_of_neg (by simp [hqb]), List.filter_cons_of_pos hpb]
          exact lt_of_lt_of_le hrest (by simp)
        | false =>
          rw [List.filter_cons_of_neg (by simp [hqb]),
            List.filter_cons_of_neg (by simp [hpb])]
          exact hrest

theorem visitL_err (all : SGraph) :
    ∀ (fuel : Nat) (anc vis ord todo : List String) (e : SErr),
      visitL all fuel anc vis ord todo = Except.error e →
      (∃ m, e = SErr.notFound m ∧ lookupDeps all m = none) ∨
      (∃ p, e = SErr.circular p) ∨ e = SErr.fuelExhausted := by
  intro fuel
  induction fuel with
  | zero =>
    intro anc vis ord todo e h
    cases todo with
    | nil => simp [visitL] at h
    | cons n rest =>
      have h2 := h
      simp [visitL] at h2
      right; right
      exact h2.symm
  | succ f ihf =>
    intro anc vis ord todo
    induction todo generalizing vis ord with
    | nil => intro e h; simp [visitL] at h
    | cons n rest ihr =>
      intro e h
      rw [visitL] at h
      by_cases hv : vis.contains n = true
      · rw [if_pos hv] at h
        exact ihr vis ord e h
      · rw [if_neg hv] at h
        by_cases ha : anc.contains n = true
        · rw [if_pos ha] at h
          have : SErr.circular (buildCyclePath anc n) = e := by
            injection h
          right; left
          exact ⟨buildCyclePath anc n, this.symm⟩
        · rw [if_neg ha] at h
          cases hl : lookupDeps all n with
          | none =>
            rw [hl] at h
            have : SErr.notFound n = e := by injection h
            left
            exact ⟨n, this.symm, hl⟩
          | some deps =>
            rw [hl] at h
            have hm : (match visitL all f (anc ++ [n]) vis ord (sortStrings deps) with
                | Except.error e => Except.error e
                | Except.ok (v, o) =>
                  visitL all (f + 1) anc (v ++ [n]) (o ++ [n]) rest) =
                Except.error e := h
            cases hd : visitL all f (anc ++ [n]) vis ord (sortStrings deps) with
            | error e' =>
              rw [hd] at hm
              have he : e' = e := by injection hm
              rw [← he]
              exact ihf (anc ++ [n]) vis ord (sortStrings deps) e' hd
            | ok vo =>
              obtain ⟨v', o'⟩ := vo
              rw [hd] at hm
              exact ihr (v' ++ [n]) (o' ++ [n]) e hm

theorem visitL_no_notfound (all : SGraph) (hclosed : closedB all = true) :
    ∀ (fuel : Nat) (anc vis ord todo : List String) (m : String),
      (∀ t ∈ todo, t ∈ seederKeys all) →
      visitL all fuel anc vis ord todo ≠ Except.error (SErr.notFound m) := by
  intro fuel
  induction fuel with
  | zero =>
    intro anc vis ord todo m _ h
    cases todo with
    | nil => simp [visitL] at h
    | cons n rest => simp [visitL] at h
  | succ f ihf =>
    intro anc vis ord todo
    induction todo generalizing vis ord with
    | nil => intro m _ h; simp [visitL] at h
    | cons n rest ihr =>
      intro m hkeys h
      rw [visitL] at h
      by_cases hv : vis.contains n = true
      · rw [if_pos hv] at h
        exact ihr vis ord m (fun t ht => hkeys t (List.mem_cons_of_mem _ ht)) h
      · rw [if_neg hv] at h
        by_cases ha : anc.contains n = true
        · rw [if_pos ha] at h
          simp at h
        · rw [if_neg ha] at h
          cases hl : lookupDeps all n with
          | none =>
            have : n ∈ seederKeys all := hkeys n (List.mem_cons_self _ _)
            exact absurd this ((lookupDeps_eq_none all n).mp hl)
          | some deps =>
            rw [hl] at h
            have hm : (match visitL all f (anc ++ [n]) vis ord (sortStrings deps) with
                | Except.error e => Except.error e
                | Except.ok (v, o) =>
                  visitL all (f + 1) anc (v ++ [n]) (o ++ [n]) rest) =
                Except.error (SErr.notFound m) := h
            cases hd : visitL all f (anc ++ [n]) vis ord (sortStrings deps) with
            | error e' =>
              rw [hd] at hm
              have he : e' = SErr.notFound m := by injection hm
              rw [he] at hd
              exact ihf (anc ++ [n]) vis ord (sortStrings deps) m
                (fun t ht => closed_deps all hclosed n deps hl t
                  ((mem_sortStrings deps t).mp ht)) hd
            | ok vo =>
              obtain ⟨v', o'⟩ := vo
              rw [hd] at hm
              exact ihr (v' ++ [n]) (o' ++ [n]) m
                (fun t ht => hkeys t (List.mem_cons_of_mem _ ht)) hm

theorem visitL_no_fuel (all : SGraph) (hclosed : closedB all = true) :
    ∀ (fuel : Nat) (anc vis ord todo : List String),
      (∀ t ∈ todo, t ∈ seederKeys all) →
      ((seederKeys all).filter (fun k => !(anc.contains k))).length < fuel →
      visitL all fuel anc vis ord todo ≠ Except.error SErr.fuelExhausted := by
  intro fuel
  induction fuel with
  | zero =>
    intro anc vis ord todo _ hflt
    exact absurd hflt (by simp)
  | succ f ihf =>
    intro anc vis ord todo
    induction todo generalizing vis ord with
    | nil => intro _ _ h; simp [visitL] at h
    | cons n rest ihr =>
      intro hkeys hflt h
      rw [visitL] at h
      by_cases hv : vis.contains n = true
      · rw [if_pos hv] at h
        exact ihr vis ord (fun t ht => hkeys t (List.mem_cons_of_mem _ ht)) hflt h
      · rw [if_neg hv] at h
        by_cases ha : anc.contains n = true
        · rw [if_pos ha] at h
          simp at h
        · rw [if_neg ha] at h
          have hnk : n ∈ seederKeys all := hkeys n (List.mem_cons_self _ _)
          have hnanc : n ∉ anc := fun hm => ha (List.elem_iff.mpr hm)
          cases hl : lookupDeps all n with
          | none =>
            rw [hl] at h
            simp at h
          | some deps =>
            rw [hl] at h
            have hm : (match visitL all f (anc ++ [n]) vis ord (sortStrings deps) with
                | Except.error e => Except.error e
                | Except.ok (v, o) =>
                  visitL all (f + 1) anc (v ++ [n]) (o ++ [n]) rest) =
                Except.error SErr.fuelExhausted := h
            have hmeas : ((seederKeys all).filter
                (fun k => !((anc ++ [n]).contains k))).length <
                ((seederKeys all).filter (fun k => !(anc.contains k))).length := by
              apply length_filter_lt_of_witness (seederKeys all)
                (fun k => !(anc.contains k)) (fun k => !((anc ++ [n]).contains k))
              · intro x _ hq
                have hxa : x ∉ anc := by
                  intro hm2
                  have hcon : (anc ++ [n]).contains x = true :=
                    List.elem_iff.mpr (List.mem_append_left _ hm2)
                  rw [hcon] at hq
                  simp at hq
                cases hc : anc.contains x with
                | false => rfl
                | true => exact absurd (List.elem_iff.mp hc) hxa
              · exact hnk
              · cases hc : anc.contains n with
                | false => rfl
                | true => exact absurd (List.elem_iff.mp hc) hnanc
              · have hmem : n ∈ anc ++ [n] := List.mem_append_right _ (by simp)
                have hcon : (anc ++ [n]).contains n = true := List.elem_iff.mpr hmem
                rw [hcon]
                rfl
            cases hd : visitL all f (anc ++ [n]) vis ord (sortStrings deps) with
            | error e' =>
              rw [hd] at hm
              have he : e' = SErr.fuelExhausted := by injection hm
              rw [he] at hd
              exact ihf (anc ++ [n]) vis ord (sortStrings deps)
                (fun t ht => closed_deps all hclosed n deps hl t
                  ((mem_sortStrings deps t).mp ht))
                (by omega) hd
            | ok vo =>
              obtain ⟨v', o'⟩ := vo
              rw [hd] at hm
              exact ihr (v' ++ [n]) (o' ++ [n])
                (fun t ht => hkeys t (List.mem_cons_of_mem _ ht)) hflt hm

theorem visitL_circ (all : SGraph) :
    ∀ (fuel : Nat) (anc vis ord todo : List String) (p : String),
      (∀ t ∈ todo, chainB all (anc ++ [t]) = true) →
      visitL all fuel anc vis ord todo = Except.error (SErr.circular p) →
      ∃ c, isCycleB all c = true := by
  intro fuel
  induction fuel with
  | zero =>
    intro anc vis ord todo p _ h
    cases todo with
    | nil => simp [visitL] at h
    | cons n rest => simp [visitL] at h
  | succ f ihf =>
    intro anc vis ord todo
    induction todo generalizing vis ord with
    | nil => intro p _ h; simp [visitL] at h
    | cons n rest ihr =>
      intro p hchain h
      rw [visitL] at h
      by_cases hv : vis.contains n = true
      · rw [if_pos hv] at h
        exact ihr vis ord p (fun t ht => hchain t (List.mem_cons_of_mem _ ht)) h
      · rw [if_neg hv] at h
        by_cases ha : anc.contains n = true
        · have hmemanc : n ∈ anc := List.elem_iff.mp ha
          rcases List.append_of_mem hmemanc with ⟨pre, suf, hsplit⟩
          have hch : chainB all (anc ++ [n]) = true :=
            hchain n (List.mem_cons_self _ _)
          have hch2 : chainB all ((n :: suf) ++ [n]) = true := by
            apply chainB_suffix all pre
            rw [← List.append_assoc, ← hsplit]
            exact hch
          have hinv := chainB_snoc_inv all (n :: suf) n (by simp) hch2
          refine ⟨n :: suf, ?_⟩
          unfold isCycleB
          rw [Bool.and_eq_true]
          refine ⟨hinv.1, ?_⟩
          have : (n :: suf).getLastD "" = suf.getLastD n := List.getLastD_cons ..
          rw [← this]
          exact hinv.2
        · rw [if_neg ha] at h
          cases hl : lookupDeps all n with
          | none =>
            rw [hl] at h
            simp at h
          | some deps =>
            rw [hl] at h
            have hm : (match visitL all f (anc ++ [n]) vis ord (sortStrings deps) with
                | Except.error e => Except.error e
                | Except.ok (v, o) =>
                  visitL all (f + 1) anc (v ++ [n]) (o ++ [n]) rest) =
                Except.error (SErr.circular p) := h
            cases hd : visitL all f (anc ++ [n]) vis ord (sortStrings deps) with
            | error e' =>
              rw [hd] at hm
              have he : e' = SErr.circular p := by injection hm
              rw [he] at hd
              apply ihf (anc ++ [n]) vis ord (sortStrings deps) p ?_ hd
              intro d hdm
              apply chainB_snoc all anc n d (hchain n (List.mem_cons_self _ _))
              exact edgeB_of_deps all n d deps hl ((mem_sortStrings deps d).mp hdm)
            | ok vo =>
              obtain ⟨v', o'⟩ := vo
              rw [hd] at hm
              exact ihr (v' ++ [n]) (o' ++ [n]) p
                (fun t ht => hchain t (List.mem_cons_of_mem _ ht)) hm

theorem reach_mem_of_depClosed (all : SGraph) (v : List String)
    (hdc : depClosedB all v) {a z : String} (ha : a ∈ v)
    (hr : Reach all a z) : z ∈ v := by
  induction hr with
  | refl => exact ha
  | tail _ he ih =>
    rcases edgeB_elim all _ _ he with ⟨ds, hl, hz⟩
    exact hdc _ ih ds hl _ hz

theorem topo_descent (all : SGraph) (o : List String) (htopo : topoB all o) :
    ∀ a b, a ∈ o → edgeB all a b = true → o.indexOf b < o.indexOf a := by
  intro a b ha he
  rcases edgeB_elim all a b he with ⟨ds, hl, hb⟩
  exact (htopo a ha ds hl b hb).2

theorem keysFilterNil (all : SGraph) :
    ((seederKeys all).filter
      (fun k => !(([] : List String).contains k))).length < seedFuel all := by
  have heq : (seederKeys all).filter
      (fun k => !(([] : List String).contains k)) = seederKeys all := by
    apply List.filter_eq_self.mpr
    intro a _
    rfl
  rw [heq, seedFuel, seederKeys, List.length_map]
  omega

theorem resolveAllOrder_cases (all : SGraph) (hclosed : closedB all = true) :
    (∃ p, resolveAllOrder all = Except.error (SErr.circular p)) ∨
    (∃ o, resolveAllOrder all = Except.ok o ∧
      (∀ k ∈ seederKeys all, k ∈ o) ∧ o.Nodup ∧ topoB all o) := by
  have hkeys : ∀ t ∈ sortStrings (seederKeys all), t ∈ seederKeys all :=
    fun t ht => (mem_sortStrings _ t).mp ht
  cases hres : visitL all (seedFuel all) [] [] [] (sortStrings (seederKeys all)) with
  | error e =>
    rcases visitL_err all (seedFuel all) [] [] [] (sortStrings (seederKeys all)) e hres
      with ⟨m, hem, _⟩ | ⟨p, hep⟩ | hef
    · rw [hem] at hres
      exact absurd hres
        (visitL_no_notfound all hclosed (seedFuel all) [] [] [] _ m hkeys)
    · left
      refine ⟨p, ?_⟩
      unfold resolveAllOrder
      rw [hres, hep]
    · rw [hef] at hres
      exact absurd hres
        (visitL_no_fuel all hclosed (seedFuel all) [] [] [] _ hkeys (keysFilterNil all))
  | ok vo =>
    obtain ⟨v, o⟩ := vo
    have H := visitL_ok all (seedFuel all) [] [] [] (sortStrings (seederKeys all)) v o hres
    obtain ⟨⟨δ, hv, ho, _, _⟩, H2, _, H4, _⟩ := H
    simp only [List.nil_append] at hv ho
    right
    refine ⟨o, ?_, ?_, ?_⟩
    · unfold resolveAllOrder
      rw [hres]
    · intro k hk
      have hkv : k ∈ v := H2 k ((mem_sortStrings _ k).mpr hk)
      rw [hv] at hkv
      rw [ho]
      exact hkv
    · exact H4 (fun x => Iff.rfl) (by simp) (by intro nn hnn; simp at hnn)

theorem resolveOrder_cases (all : SGraph) (hclosed : closedB all = true)
    (name : String) (hname : name ∈ seederKeys all) :
    (∃ p, resolveOrder all name = Except.error (SErr.circular p)) ∨
    (∃ o, resolveOrder all name = Except.ok o ∧
      (∀ x, x ∈ o ↔ Reach all name x) ∧ o.Nodup ∧ topoB all o) := by
  have hkeys : ∀ t ∈ [name], t ∈ seederKeys all := by
    intro t ht
    rw [List.mem_singleton] at ht
    rw [ht]
    exact hname
  cases hres : visitL all (seedFuel all) [] [] [] [name] with
  | error e =>
    rcases visitL_err all (seedFuel all) [] [] [] [name] e hres
      with ⟨m, hem, _⟩ | ⟨p, hep⟩ | hef
    · rw [hem] at hres
      exact absurd hres
        (visitL_no_notfound all hclosed (seedFuel all) [] [] [] _ m hkeys)
    · left
      refine ⟨p, ?_⟩
      unfold resolveOrder
      rw [hres, hep]
    · rw [hef] at hres
      exact absurd hres
        (visitL_no_fuel all hclosed (seedFuel all) [] [] [] _ hkeys (keysFilterNil all))
  | ok vo =>
    obtain ⟨v, o⟩ := vo
    have H := visitL_ok all (seedFuel all) [] [] [] [name] v o hres
    obtain ⟨⟨δ, hv, ho, _, _⟩, H2, H3, H4, H5⟩ := H
    simp only [List.nil_append] at hv ho
    right
    have hveqo : v = o := by rw [hv, ho]
    have hnv : name ∈ v := H2 name (by simp)
    have hdc : depClosedB all v := H3 (by intro x hx; simp at hx)
    refine ⟨o, ?_, ?_, ?_⟩
    · unfold resolveOrder
      rw [hres]
    · intro x
      constructor
      · intro hx
        have hxv : x ∈ v := by rw [hveqo]; exact hx
        rcases H5 (Reach all name) (fun a b hp he => Reach.tail hp he)
          (by intro t ht; rw [List.mem_singleton] at ht; rw [ht]; exact Reach.refl name)
          x hxv with hh | hh
        · simp at hh
        · exact hh
      · intro hx
        rw [← hveqo]
        exact reach_mem_of_depClosed all v hdc hnv hx
    · exact H4 (fun x => Iff.rfl) (by simp) (by intro nn hnn; simp at hnn)

/-- Recognizer for a CircularDependency error result. -/
def isCircularErr : Option SErr → Bool
  | some (SErr.circular _) => true
  | _ => false

def sA : String := "a"

def sB : String := "b"

def sC : String := "c"

/-- The three-node cycle a -> b -> c -> a from the spec example. -/
def cycleG : SGraph := [(sA, [sB]), (sB, [sC]), (sC, [sA])]

def cyclePathABC : String := "a -> b -> c -> a"

def envT : String → Bool := fun _ => true

/-- C5: for every seeder dependency graph with registered dependencies that
contains a dependency cycle (two-or-more-node or self-dependency, captured
by isCycleB), RunAll fails with a CircularDependency error and the list of
executed seeders is empty; Run(name) does the same whenever a dependency
chain starting at name reaches a node of some cycle; and on the concrete
three-node example graph the error message is exactly
"a -> b -> c -> a", the cycle path. -/
theorem seeder_cycle_spec (env : String → Bool) (all : SGraph)
    (hclosed : closedB all = true)
    (hcyc : ∃ c, isCycleB all c = true) :
    ((RunAll env all).1 = [] ∧ isCircularErr (RunAll env all).2 = true) ∧
    (∀ (name : String) (t : List String), chainB all (name :: t) = true →
      (∃ c, isCycleB all c = true ∧ t.getLastD name ∈ c) →
      (SeederRun env all name).1 = [] ∧
        isCircularErr (SeederRun env all name).2 = true) ∧
    RunAll envT cycleG = ([], some (SErr.circular cyclePathABC)) := by
  obtain ⟨c, hc⟩ := hcyc
  refine ⟨?_, ?_, by
    simp +decide [RunAll, resolveAllOrder, visitL, seedFuel, seederKeys, sortStrings,
      insertStr, lookupDeps, buildCyclePath, cycleG, envT, sA, sB, sC, cyclePathABC,
      strLe, strLt, ltChars, String.intercalate]⟩
  · have hcne : c ≠ [] := by
      intro h
      rw [h] at hc
      simp [isCycleB] at hc
    obtain ⟨x, hx⟩ : ∃ x, x ∈ c := by
      cases c with
      | nil => exact absurd rfl hcne
      | cons a l => exact ⟨a, List.mem_cons_self a l⟩
    have hxk : x ∈ seederKeys all := cycle_mem_keys all c hc x hx
    have hempty : all.isEmpty = false := by
      cases all with
      | nil => rw [seederKeys] at hxk; simp at hxk
      | cons p ps => rfl
    rcases resolveAllOrder_cases all hclosed with ⟨p, hp⟩ | ⟨o, hok, hall, _, htopo⟩
    · have hra : RunAll env all = ([], some (SErr.circular p)) := by
        unfold RunAll
        rw [hempty, if_neg (by decide), hp]
      rw [hra]
      exact ⟨rfl, rfl⟩
    · exact (cycle_no_descent all c hc (fun s => o.indexOf s)
        (fun a b ha he => topo_descent all o htopo a b
          (hall a (cycle_mem_keys all c hc a ha)) he)).elim
  · intro name t hchain hcy
    obtain ⟨c', hc', hlast⟩ := hcy
    have hnk : name ∈ seederKeys all := by
      cases t with
      | nil =>
        have hnc : name ∈ c' := by simpa using hlast
        exact cycle_mem_keys all c' hc' name hnc
      | cons y t' =>
        have h2 := hchain
        rw [chainB_cons₂, Bool.and_eq_true] at h2
        exact keys_of_edgeB all name y h2.1
    cases hl : lookupDeps all name with
    | none => exact absurd hnk ((lookupDeps_eq_none all name).mp hl)
    | some d0 =>
      rcases resolveOrder_cases all hclosed name hnk with ⟨p, hp⟩ | ⟨o, hok, hiff, _, htopo⟩
      · have hsr : SeederRun env all name = ([], some (SErr.circular p)) := by
          have h1 : SeederRun env all name =
              (match resolveOrder all name with
               | Except.error e => ([], some e)
               | Except.ok order => runSeeders env order) := by
            unfold SeederRun
            rw [hl]
          rw [h1, hp]
        rw [hsr]
        exact ⟨rfl, rfl⟩
      · have hreach : Reach all name (t.getLastD name) := chain_reach all t name hchain
        have hmemo : ∀ a ∈ c', a ∈ o := by
          intro a ha
          have hr1 : Reach all (t.getLastD name) a :=
            cycle_rotation all c' hc' (t.getLastD name) hlast a ha
          exact (hiff a).mpr (Reach.trans_r all hreach hr1)
        exact (cycle_no_descent all c' hc' (fun s => o.indexOf s)
          (fun a b ha he => topo_descent all o htopo a b (hmemo a ha) he)).elim

theorem seeder_cycle_spec_w :
    closedB cycleG = true ∧ isCycleB cycleG [sA, sB, sC] = true ∧
    (RunAll envT cycleG).1 = [] ∧ isCircularErr (RunAll envT cycleG).2 = true ∧
    (SeederRun envT cycleG sB).1 = [] ∧
    isCircularErr (SeederRun envT cycleG sB).2 = true := by
  have h := seeder_cycle_spec envT cycleG (by decide) ⟨[sA, sB, sC], by decide⟩
  have h2 := h.2.1 sB [] (by decide) ⟨[sA, sB, sC], by decide, by decide⟩
  exact ⟨by decide, by decide, h.1.1, h.1.2, h2.1, h2.2⟩

/-- Modelled acyclicity certificate: a rank function strictly decreasing
along every declared dependency edge. -/
def rankOkB (all : SGraph) (rank : String → Nat) : Bool :=
  all.all (fun p => p.2.all (fun d => decide (rank d < rank p.1)))

theorem rank_descent (all : SGraph) (rank : String → Nat)
    (h : rankOkB all rank = true) :
    ∀ a b, edgeB all a b = true → rank b < rank a := by
  intro a b he
  rcases edgeB_elim all a b he with ⟨ds, hl, hb⟩
  have hmem := lookupDeps_mem all a ds hl
  rw [rankOkB, List.all_eq_true] at h
  have h2 := h (a, ds) hmem
  rw [List.all_eq_true] at h2
  exact of_decide_eq_true (h2 b hb)

def sAU : String := "A"

def sBU : String := "B"

def sCU : String := "C"

def sXU : String := "X"

/-- C depends on B depends on A, plus an unrelated registered seeder X. -/
def depsCBA : SGraph := [(sAU, []), (sBU, [sAU]), (sCU, [sBU]), (sXU, [])]

/-- A seeder whose declared dependency B is not registered. -/
def missingG : SGraph := [(sCU, [sBU])]

def sR : String := "r"

/-- r declares its dependencies in the order [b, a]. -/
def lexG : SGraph := [(sR, [sB, sA]), (sA, []), (sB, [])]

def rankCBA : String → Nat :=
  fun s => if s = sCU then 2 else if s = sBU then 1 else 0

/-- C6: on a registered-closed, acyclic graph (witnessed by a rank function
decreasing along edges) whose seeder bodies all succeed, Run(name) succeeds
and executes exactly the transitive dependency closure of name, without
duplicates, each seeder strictly after all of its declared dependencies;
concretely, with C -> B -> A and an unrelated X registered, Run C executes
exactly [A, B, C]; dependencies are visited in lexicographic order (r with
deps declared [b, a] runs [a, b, r]); and a dependency naming an
unregistered seeder fails with NotFound. -/
theorem seeder_run_spec (env : String → Bool) (all : SGraph) (name : String)
    (hclosed : closedB all = true)
    (hname : name ∈ seederKeys all)
    (hacyc : ∃ rank : String → Nat, rankOkB all rank = true)
    (henv : ∀ s, env s = true) :
    ((SeederRun env all name).2 = none ∧
      (∀ x, x ∈ (SeederRun env all name).1 ↔ Reach all name x) ∧
      (SeederRun env all name).1.Nodup ∧
      topoB all (SeederRun env all name).1) ∧
    SeederRun envT depsCBA sCU = ([sAU, sBU, sCU], none) ∧
    SeederRun envT lexG sR = ([sA, sB, sR], none) ∧
    SeederRun envT missingG sCU = ([], some (SErr.notFound sBU)) := by
  obtain ⟨rank, hrank⟩ := hacyc
  refine ⟨?_, ?_, ?_, ?_⟩
  · cases hl : lookupDeps all name with
    | none => exact absurd hname ((lookupDeps_eq_none all name).mp hl)
    | some d0 =>
      rcases resolveOrder_cases all hclosed name hname
        with ⟨p, hp⟩ | ⟨o, hok, hiff, hnd, htopo⟩
      · exfalso
        unfold resolveOrder at hp
        cases hres : visitL all (seedFuel all) [] [] [] [name] with
        | error e =>
          rw [hres] at hp
          have hp2 : (Except.error e : Except SErr (List String)) =
              Except.error (SErr.circular p) := hp
          injection hp2 with he
          rcases visitL_circ all (seedFuel all) [] [] [] [name] p
            (by
              intro t ht
              rw [List.mem_singleton] at ht
              rw [ht, List.nil_append]
              rfl)
            (by rw [hres, he]) with ⟨c, hc⟩
          exact cycle_no_descent all c hc rank
            (fun a b _ he2 => rank_descent all rank hrank a b he2)
        | ok vo =>
          obtain ⟨v, o⟩ := vo
          rw [hres] at hp
          have hp2 : (Except.ok o : Except SErr (List String)) =
              Except.error (SErr.circular p) := hp
          exact absurd hp2 (by simp)
      · have hsr : SeederRun env all name = runSeeders env o := by
          have h1 : SeederRun env all name =
              (match resolveOrder all name with
               | Except.error e => ([], some e)
               | Except.ok order => runSeeders env order) := by
            unfold SeederRun
            rw [hl]
          rw [h1, hok]
        rw [hsr, runSeeders_all_ok env henv o]
        exact ⟨rfl, hiff, hnd, htopo⟩
  · simp +decide [SeederRun, resolveOrder, visitL, seedFuel, runSeeders, sortStrings,
      insertStr, lookupDeps, strLe, strLt, ltChars, envT, depsCBA, sAU, sBU, sCU, sXU]
  · simp +decide [SeederRun, resolveOrder, visitL, seedFuel, runSeeders, sortStrings,
      insertStr, lookupDeps, strLe, strLt, ltChars, envT, lexG, sR, sA, sB]
  · simp +decide [SeederRun, resolveOrder, visitL, seedFuel, runSeeders, sortStrings,
      insertStr, lookupDeps, strLe, strLt, ltChars, envT, missingG, sBU, sCU]

theorem seeder_run_spec_w :
    closedB depsCBA = true ∧ sCU ∈ seederKeys depsCBA ∧
    rankOkB depsCBA rankCBA = true ∧
    (SeederRun envT depsCBA sCU).2 = none ∧
    (SeederRun envT depsCBA sCU).1.Nodup := by
  have h := seeder_run_spec envT depsCBA sCU (by decide) (by decide)
    ⟨rankCBA, by decide⟩ (fun s => rfl)
  exact ⟨by decide, by decide, by decide, h.1.1, h.1.2.2.1⟩
